import Mathlib

/-!
# Document-selector: the inverted index and its query language (`src/index.c`)

A shallow embedding of `index.c`.

* Document paths are C strings that the index stores by address.  A path is
  therefore an address (`Ptr`), and a heap `mem : Ptr → String` gives the
  bytes found there.  The index never writes to these strings, so `mem` is
  fixed.  `compare_strings` looks at the bytes, `compare_pointers` at the
  address; `index.c` uses the first for the `paths` sets and the second for
  the `tf` maps.
* Words are used by content only (the index keys are `strdup` copies), so a
  word is a `String`.
* The containers of `list.h`, `set.h` and `map.h` are lists: a list in
  insertion order, a set as a list without repetition under its comparison
  function, a map as an association list with one entry per key.
* The term frequency is a C `int`; `*tf + 1` wraps at 32 bits (two's
  complement, what the usual compilers produce where the C standard leaves the
  overflow undefined).
* The scores are C `double`s and `log` is the one of `math.h`.  Floating
  point is not modelled: `calc_score`, `order_results` and `index_query` work
  for any type of scores with `0`, `+`, `*`, `/` and a decidable `<`, and take
  the conversion of an `int` and the function `log` as arguments.  Where a
  NaN matters, the arithmetic `nan_real` (the real numbers and a NaN) is used.
* The recursive-descent parser keeps its cursor in two module-level
  variables, `query` and `currToken`; they are the two fields of `PState`,
  passed through the parsing functions.  The parsing functions recurse on a
  fuel argument; `parse_query` supplies `4 * length` of it, which is proved
  to be enough.
-/

set_option autoImplicit false

/-! ## Containers and comparison functions -/

/-- Address of a C string. -/
abbrev Ptr := Nat

/-- Modelled from the spec: `common.h` is not under `src/`.  Equality of two
byte strings under `compare_strings` (result `0`) is bytewise. -/
def compare_strings (a b : String) : Bool := a == b

/-- Modelled from the spec: `common.h` is not under `src/`.  The comparison
`compare_strings` applied to two path pointers reads the bytes at the two
addresses. -/
def compare_paths (mem : Ptr → String) (a b : Ptr) : Bool :=
  compare_strings (mem a) (mem b)

/-- Modelled from the spec: `common.h`, which declares `compare_pointers`, is
not under `src/`, and the spec does not describe it.  As the name says, two
pointers are equal under it (result `0`) when they are the same address. -/
def compare_pointers (a b : Ptr) : Bool := a == b

/-- Modelled from the spec: `map.h` is not under `src/`.  The value stored
under the first key equal to `key`, if there is one. -/
def map_get {κ ν : Type} (cmp : κ → κ → Bool) : List (κ × ν) → κ → Option ν
  | [], _ => none
  | (k, v) :: m, key => if cmp k key then some v else map_get cmp m key

/-- Modelled from the spec: `map.h` is not under `src/`.  Whether the map
has an entry for `key`. -/
def map_haskey {κ ν : Type} (cmp : κ → κ → Bool) (m : List (κ × ν)) (key : κ) : Bool :=
  (map_get cmp m key).isSome

/-- Modelled from the spec: `map.h` is not under `src/`.  The value of an
existing key is replaced, a new key is added. -/
def map_put {κ ν : Type} (cmp : κ → κ → Bool) : List (κ × ν) → κ → ν → List (κ × ν)
  | [], key, val => [(key, val)]
  | (k, v) :: m, key, val =>
    if cmp k key then (k, val) :: m else (k, v) :: map_put cmp m key val

/-- Modelled from the spec: `set.h` is not under `src/`.  Membership under
the comparison function of the set. -/
def set_contains {α : Type} (cmp : α → α → Bool) (s : List α) (x : α) : Bool :=
  s.any (fun y => cmp y x)

/-- Modelled from the spec: `set.h` is not under `src/`.  Adding an element
that the set already contains changes nothing. -/
def set_add {α : Type} (cmp : α → α → Bool) (s : List α) (x : α) : List α :=
  if set_contains cmp s x then s else s ++ [x]

/-- Modelled from the spec: `set.h` is not under `src/`.  A copy has the
same elements. -/
def set_copy {α : Type} (s : List α) : List α := s

/-- Modelled from the spec: `set.h` is not under `src/`.  Union. -/
def set_union {α : Type} (cmp : α → α → Bool) (a b : List α) : List α :=
  a ++ b.filter (fun x => !set_contains cmp a x)

/-- Modelled from the spec: `set.h` is not under `src/`.  Intersection. -/
def set_intersection {α : Type} (cmp : α → α → Bool) (a b : List α) : List α :=
  a.filter (fun x => set_contains cmp b x)

/-- Modelled from the spec: `set.h` is not under `src/`.  Difference. -/
def set_difference {α : Type} (cmp : α → α → Bool) (a b : List α) : List α :=
  a.filter (fun x => !set_contains cmp b x)

/-- The value of a 32-bit two's-complement `int` holding `x`. -/
def int_wrap (x : Int) : Int := (x + 2147483648) % 4294967296 - 2147483648

/-! ## The index -/

/-- The `struct posting`: term frequencies keyed by path pointer, and the set
of paths. -/
structure posting_t where
  tf : List (Ptr × Int)
  paths : List Ptr
  deriving DecidableEq, Repr

/-- The `struct index`.  The field `postings` of the C structure lists the
posting objects for `index_destroy` only; each of them is the value of
exactly one key of `map`, where it is kept here. -/
structure index_t where
  map : List (String × posting_t)
  paths : List Ptr
  deriving DecidableEq, Repr

/-- An `index_create` result: no term, no document. -/
def index_create : index_t := ⟨[], []⟩

/-- A `create_posting` result: empty `paths` set (compared by content) and
empty `tf` map (compared by address). -/
def create_posting : posting_t := ⟨[], []⟩

/-- One round of the `while` loop of `index_addpath` (lines 103-136): locate or
create the posting of `word`, add `path` to its set, count the occurrence.
The C code updates the posting object in place through the pointer held by
the map; here the updated posting is stored back under `word`. -/
def index_addpath_step (mem : Ptr → String) (index : index_t) (path : Ptr)
    (word : String) : index_t :=
  let p : posting_t :=
    match map_get compare_strings index.map word with
    | some p => p
    | none => create_posting
  let paths := set_add (compare_paths mem) p.paths path
  let tf : Int :=
    match map_get compare_pointers p.tf path with
    | some tf => int_wrap (tf + 1)
    | none => 1
  { index with
    map := map_put compare_strings index.map word
      ⟨map_put compare_pointers p.tf path tf, paths⟩ }

/-- The `while` loop of `index_addpath` over the list of words. -/
def index_addpath_loop (mem : Ptr → String) (index : index_t) (path : Ptr) :
    List String → index_t
  | [] => index
  | word :: words => index_addpath_loop mem (index_addpath_step mem index path word) path words

/-- The function `index_addpath`: the path is appended to the list of
documents, then every word is indexed. -/
def index_addpath (mem : Ptr → String) (index : index_t) (path : Ptr)
    (words : List String) : index_t :=
  index_addpath_loop mem { index with paths := index.paths ++ [path] } path words

/-- The index after a sequence of `index_addpath` calls on `index`. -/
def index_addpaths (mem : Ptr → String) (index : index_t) :
    List (Ptr × List String) → index_t
  | [] => index
  | (path, words) :: calls => index_addpaths mem (index_addpath mem index path words) calls

/-! ## The query tree and the parser -/

/-- The `struct querynode`: a `WORD` leaf carries the word, the three other
node types carry two subtrees. -/
inductive querynode : Type
  | WORD (word : String)
  | OR (left right : querynode)
  | AND (left right : querynode)
  | ANDNOT (left right : querynode)
  deriving DecidableEq, Repr

deriving instance DecidableEq for Except

/-- The cursor of the parser: `query` holds the tokens the list iterator has
not yet returned, `currToken` the lookahead token (`none` for `NULL`). -/
structure PState where
  query : List String
  currToken : Option String
  deriving DecidableEq, Repr

/-- The statement pair `if (list_hasnext(query)) currToken = list_next(query);
else currToken = NULL;` that moves the cursor to the next token. -/
def next_token (s : PState) : PState :=
  match s.query with
  | [] => ⟨[], none⟩
  | t :: q => ⟨q, some t⟩

/-- Result of a parsing function: `none` when the fuel ran out, an error with
the text left in `error_msg`, or the tree with the cursor after it. -/
abbrev PResult := Option (Except String (querynode × PState))

mutual
/-- The function `parse_term`: `term ::= ( andnotterm ) | <word>`. -/
def parse_term : Nat → PState → PResult
  | 0, _ => none
  | n + 1, s =>
    match s.currToken with
    | none => some (.error "unexpected end of query")
    | some tok =>
      if tok = "(" then
        match s.query with
        | [] => some (.error "expected expression after parenthesis")
        | t :: q =>
          match parse_andnotterm n ⟨q, some t⟩ with
          | none => none
          | some (.error e) => some (.error e)
          | some (.ok (a, s1)) =>
            if s1.currToken ≠ some ")" then some (.error "missing closing parenthesis")
            else some (.ok (a, next_token s1))
      else some (.ok (.WORD tok, next_token s))
/-- The function `parse_orterm`: `orterm ::= term | term OR orterm`. -/
def parse_orterm : Nat → PState → PResult
  | 0, _ => none
  | n + 1, s =>
    match parse_term n s with
    | none => none
    | some (.error e) => some (.error e)
    | some (.ok (a, s1)) =>
      if s1.currToken = some "OR" then
        match s1.query with
        | [] => some (.error "expected expression after OR")
        | t :: q =>
          match parse_orterm n ⟨q, some t⟩ with
          | none => none
          | some (.error e) => some (.error e)
          | some (.ok (b, s2)) => some (.ok (.OR a b, s2))
      else some (.ok (a, s1))
/-- The function `parse_andterm`: `andterm ::= orterm | orterm AND andterm`. -/
def parse_andterm : Nat → PState → PResult
  | 0, _ => none
  | n + 1, s =>
    match parse_orterm n s with
    | none => none
    | some (.error e) => some (.error e)
    | some (.ok (a, s1)) =>
      if s1.currToken = some "AND" then
        match s1.query with
        | [] => some (.error "expected expression after AND")
        | t :: q =>
          match parse_andterm n ⟨q, some t⟩ with
          | none => none
          | some (.error e) => some (.error e)
          | some (.ok (b, s2)) => some (.ok (.AND a b, s2))
      else some (.ok (a, s1))
/-- The function `parse_andnotterm`:
`andnotterm ::= andterm | andterm ANDNOT andnotterm`. -/
def parse_andnotterm : Nat → PState → PResult
  | 0, _ => none
  | n + 1, s =>
    match parse_andterm n s with
    | none => none
    | some (.error e) => some (.error e)
    | some (.ok (a, s1)) =>
      if s1.currToken = some "ANDNOT" then
        match s1.query with
        | [] => some (.error "expected expression after ANDNOT")
        | t :: q =>
          match parse_andnotterm n ⟨q, some t⟩ with
          | none => none
          | some (.error e) => some (.error e)
          | some (.ok (b, s2)) => some (.ok (.ANDNOT a b, s2))
      else some (.ok (a, s1))
end

/-- The function `parse_query`: the first token is read, one `andnotterm` is
parsed, and tokens left over are an error.  The result is `none` only if the
fuel ran out, which `parse_query_total` excludes. -/
def parse_query (q : List String) : Option (Except String querynode) :=
  match q with
  | [] => some (.error "empty query string")
  | t :: rest =>
    match parse_andnotterm (4 * q.length) ⟨rest, some t⟩ with
    | none => none
    | some (.error e) => some (.error e)
    | some (.ok (r, s)) =>
      if s.currToken ≠ none then some (.error "extra terms at end of query")
      else some (.ok r)

/-- The function `eval_query`: the set of paths a query tree denotes. -/
def eval_query (mem : Ptr → String) (index : index_t) : querynode → List Ptr
  | .WORD word =>
    match map_get compare_strings index.map word with
    | some p => set_copy p.paths
    | none => []
  | .OR left right =>
    set_union (compare_paths mem) (eval_query mem index left) (eval_query mem index right)
  | .AND left right =>
    set_intersection (compare_paths mem) (eval_query mem index left) (eval_query mem index right)
  | .ANDNOT left right =>
    set_difference (compare_paths mem) (eval_query mem index left) (eval_query mem index right)

/-! ## Notions used to state the properties -/

/-- The five reserved tokens of the query language. -/
def reservedTokens : List String := ["AND", "OR", "ANDNOT", "(", ")"]

/-- The words at the `WORD` leaves of a query tree, left to right. -/
def leaves : querynode → List String
  | .WORD word => [word]
  | .OR left right => leaves left ++ leaves right
  | .AND left right => leaves left ++ leaves right
  | .ANDNOT left right => leaves left ++ leaves right

/-- The token sequence of a query tree with explicit parentheses around every
binary node: `(` left OP right `)`. -/
def serialize : querynode → List String
  | .WORD word => [word]
  | .OR left right => "(" :: (serialize left ++ "OR" :: (serialize right ++ [")"]))
  | .AND left right => "(" :: (serialize left ++ "AND" :: (serialize right ++ [")"]))
  | .ANDNOT left right => "(" :: (serialize left ++ "ANDNOT" :: (serialize right ++ [")"]))

/-- The heap of scenario S4: the three path strings `a`, `b`, `c` at the
addresses 1, 2, 3. -/
def memS4 : Ptr → String := fun p => if p = 1 then "a" else if p = 2 then "b" else "c"

/-- The corpus of scenario S4: `a = {x}`, `b = {y}`, `c = {z}`. -/
def corpusS4 : index_t :=
  index_addpaths memS4 index_create [(1, ["x"]), (2, ["y"]), (3, ["z"])]

/-! ## Notions used in the proofs about the parser -/

/-- Body of `parse_term` over the function called for the parenthesised
expression. -/
def termLevel (inner : PState → PResult) (s : PState) : PResult :=
  match s.currToken with
  | none => some (.error "unexpected end of query")
  | some tok =>
    if tok = "(" then
      match s.query with
      | [] => some (.error "expected expression after parenthesis")
      | t :: q =>
        match inner ⟨q, some t⟩ with
        | none => none
        | some (.error e) => some (.error e)
        | some (.ok (a, s1)) =>
          if s1.currToken ≠ some ")" then some (.error "missing closing parenthesis")
          else some (.ok (a, next_token s1))
    else some (.ok (.WORD tok, next_token s))

/-- Common body of `parse_orterm`, `parse_andterm` and `parse_andnotterm` over
the operator, the node constructor, the function called for the left operand
and the function called for the right operand. -/
def binLevel (op : String) (mk : querynode → querynode → querynode)
    (sub rec : PState → PResult) (s : PState) : PResult :=
  match sub s with
  | none => none
  | some (.error e) => some (.error e)
  | some (.ok (a, s1)) =>
    if s1.currToken = some op then
      match s1.query with
      | [] => some (.error ("expected expression after " ++ op))
      | t :: q =>
        match rec ⟨q, some t⟩ with
        | none => none
        | some (.error e) => some (.error e)
        | some (.ok (b, s2)) => some (.ok (mk a b, s2))
    else some (.ok (a, s1))

/-- Every answer of `f` is also the answer of `g`. -/
def Below (f g : PState → PResult) : Prop := ∀ s r, f s = some r → g s = some r

/-- A successful call of `f` leaves no more tokens in the iterator than it
found. -/
def Shorter (f : PState → PResult) : Prop :=
  ∀ s t s1, f s = some (.ok (t, s1)) → s1.query.length ≤ s.query.length

/-- The function `f` answers on every cursor with at most `m` tokens left in
the iterator. -/
def AnswersUpTo (f : PState → PResult) (m : Nat) : Prop :=
  ∀ s, s.query.length ≤ m → ∃ r, f s = some r

/-- How a successful call of `f` behaves when tokens are appended to the query:
if the call stopped at a lookahead token it is unchanged; if it stopped at the
end of the query, an appended token outside `ops` becomes the lookahead, and a
single appended operator from `ops` is an operator without right operand. -/
def ExtendsWith (ops : List String) (f : PState → PResult) : Prop :=
  ∀ s t s1, f s = some (.ok (t, s1)) →
    (∀ c, s1.currToken = some c → ∀ suf,
      f ⟨s.query ++ suf, s.currToken⟩ = some (.ok (t, ⟨s1.query ++ suf, some c⟩))) ∧
    (s1.currToken = none → ∀ X suf, X ∉ ops →
      f ⟨s.query ++ X :: suf, s.currToken⟩ = some (.ok (t, ⟨suf, some X⟩))) ∧
    (s1.currToken = none → ∀ X, X ∈ ops →
      f ⟨s.query ++ [X], s.currToken⟩ = some (.error ("expected expression after " ++ X)))

/-- With enough fuel the parsing function `f` answers `r` on the cursor `s`. -/
def Parses (f : Nat → PState → PResult) (s : PState) (r : Except String (querynode × PState)) :
    Prop :=
  ∃ n, f n s = some r

/-- No tree that `f` returns has the token `(` at a leaf. -/
def NoParenLeaf (f : PState → PResult) : Prop :=
  ∀ s t s1, f s = some (.ok (t, s1)) → ∀ w ∈ leaves t, w ≠ "("

/-! ## Notions used in the proofs about the index -/

/-- The posting that one round of the loop of `index_addpath` stores for its
word, from what the map held for that word before. -/
def posting_after (mem : Ptr → String) (path : Ptr) (o : Option posting_t) : posting_t :=
  let p : posting_t :=
    match o with
    | some p => p
    | none => create_posting
  let paths := set_add (compare_paths mem) p.paths path
  let tf : Int :=
    match map_get compare_pointers p.tf path with
    | some tf => int_wrap (tf + 1)
    | none => 1
  ⟨map_put compare_pointers p.tf path tf, paths⟩

/-- The count that the index holds for `word` in the document `path`, if any:
`tf[path]` in the posting of `word`. -/
def tf_lookup (index : index_t) (word : String) (path : Ptr) : Option Int :=
  (map_get compare_strings index.map word).bind (fun p => map_get compare_pointers p.tf path)

/-- Number of times `word` was passed to `index_addpath` together with the
pointer `path`, over a sequence of calls. -/
def occurrences : List (Ptr × List String) → Ptr → String → Nat
  | [], _, _ => 0
  | (p, words) :: calls, path, word =>
    (if p = path then words.count word else 0) + occurrences calls path word

/-- The `tf` entry after `n` occurrences: none for `n = 0`, else the C `int`
that was incremented up to `n`. -/
def tf_of_count (n : Nat) : Option Int := if n = 0 then none else some (int_wrap n)

/-- What holds of every posting of a reachable index whose documents are
`docs`: its paths and the keys of its `tf` map are documents of the index, the
keys and the paths are the same byte strings, and no key occurs twice. -/
def PostingOK (mem : Ptr → String) (docs : List Ptr) (p : posting_t) : Prop :=
  (∀ x ∈ p.paths, x ∈ docs) ∧ (∀ k ∈ p.tf.map Prod.fst, k ∈ docs) ∧
    (∀ s, s ∈ (p.tf.map Prod.fst).map mem ↔ s ∈ p.paths.map mem) ∧
    (p.tf.map Prod.fst).Nodup

/-- What holds of a reachable index: every posting is as `PostingOK` says, and
no term has two entries. -/
def IndexOK (mem : Ptr → String) (index : index_t) : Prop :=
  (∀ e ∈ index.map, PostingOK mem index.paths e.2) ∧ (index.map.map Prod.fst).Nodup

/-! ## Scoring and the query function

The scores are C `double`s computed with the `log` of `math.h`.  Floating
point is not modelled: the functions below work for any type `S` of scores
that has `0`, `+`, `*`, `/` and a decidable `<`, and take as arguments the
conversion `to_double : Int → S` of an `int` and the function `log : S → S`. -/

/-- Modelled from the spec: `index.h`, which declares `query_result_t`, is not
under `src/`.  A result record is a path with its score. -/
structure query_result_t (S : Type) where
  path : Ptr
  score : S
  deriving DecidableEq, Repr

/-- Modelled from the spec: `list.h` is not under `src/`.  The number of
elements of a list. -/
def list_size {α : Type} (l : List α) : Int := l.length

/-- Modelled from the spec: `set.h` is not under `src/`.  The number of
elements of a set. -/
def set_size {α : Type} (s : List α) : Int := s.length

/-- Modelled from the spec: `list.h` is not under `src/`.  Insertion of one
element into a list that is in ascending order of `cmp`, before the first
element that does not compare smaller. -/
def list_insert {α : Type} (cmp : α → α → Int) (x : α) : List α → List α
  | [] => [x]
  | y :: ys => if cmp x y ≤ 0 then x :: y :: ys else y :: list_insert cmp x ys

/-- Modelled from the spec: `list.h` is not under `src/`.  The function
`list_sort` puts the list in ascending order of its comparison function; the
spec leaves open which of two elements that compare equal comes first (here
the one that came first before). -/
def list_sort {α : Type} (cmp : α → α → Int) : List α → List α
  | [] => []
  | x :: xs => list_insert cmp x (list_sort cmp xs)

/-- The function `compare_results`: a result with the smaller score compares
greater. -/
def compare_results {S : Type} [LT S] [∀ a b : S, Decidable (a < b)]
    (a b : query_result_t S) : Int :=
  if a.score < b.score then 1
  else if b.score < a.score then -1
  else 0

/-- The function `newresult`. -/
def newresult {S : Type} (path : Ptr) (score : S) : query_result_t S := ⟨path, score⟩

/-- The function `calc_score`: zero if the word is not in the index or the
path is not a key of the `tf` map of its posting, else
`log(tf) * log(|paths of the index| / |paths of the posting|)`. -/
def calc_score {S : Type} [Zero S] [Mul S] [Div S] (log : S → S) (to_double : Int → S)
    (index : index_t) (path : Ptr) (word : String) : S :=
  match map_get compare_strings index.map word with
  | none => 0
  | some p =>
    match map_get compare_pointers p.tf path with
    | none => 0
    | some tf =>
      let idf : S := to_double (list_size index.paths) / to_double (set_size p.paths)
      log (to_double tf) * log idf

/-- The inner loop of `order_results`: `score += calc_score(...)` over the
tokens of the query, from `score`. -/
def sum_scores {S : Type} [Zero S] [Add S] [Mul S] [Div S] (log : S → S)
    (to_double : Int → S) (index : index_t) (path : Ptr) (score : S) : List String → S
  | [] => score
  | word :: query =>
    sum_scores log to_double index path (score + calc_score log to_double index path word) query

/-- The function `order_results`: one record per path of the set, with the
score summed over all tokens of the query, sorted with `compare_results`. -/
def order_results {S : Type} [Zero S] [Add S] [Mul S] [Div S] [LT S]
    [∀ a b : S, Decidable (a < b)] (log : S → S) (to_double : Int → S)
    (index : index_t) (query : List String) (res : List Ptr) : List (query_result_t S) :=
  list_sort compare_results
    (res.map (fun path => newresult path (sum_scores log to_double index path 0 query)))

/-- The function `index_query`.  The caller passes the cell `errmsg`; on a
parse error the result is `NULL` (`none`) and the cell receives `error_msg`,
otherwise the result is the ordered list and the cell is not written.  The
`printf` of the parse error is left out.  The outer `none` stands for the
parser running out of fuel, which it never does. -/
def index_query {S : Type} [Zero S] [Add S] [Mul S] [Div S] [LT S]
    [∀ a b : S, Decidable (a < b)] (log : S → S) (to_double : Int → S)
    (mem : Ptr → String) (index : index_t) (query : List String) (errmsg : Option String) :
    Option (Option (List (query_result_t S)) × Option String) :=
  match parse_query query with
  | none => none
  | some (.error error_msg) => some (none, some error_msg)
  | some (.ok q) =>
    let r := eval_query mem index q
    some (some (order_results log to_double index query r), errmsg)

/-- The corpus of scenario S3: `a = {cat, dog}`, `b = {cat}`, `c = {dog}`, with
the path strings at the addresses 1, 2, 3 of `memS4`. -/
def corpusS3 : index_t :=
  index_addpaths memS4 index_create [(1, ["cat", "dog"]), (2, ["cat"]), (3, ["dog"])]

/-- The set of paths, as byte strings, that a query tree denotes in the words of
the spec: a word denotes the paths of its posting, or nothing if it is unknown,
`Or` the union, `And` the intersection, `AndNot` the difference. -/
def denotes (mem : Ptr → String) (index : index_t) : querynode → String → Bool
  | .WORD word, s =>
    match map_get compare_strings index.map word with
    | some p => (p.paths.map mem).contains s
    | none => false
  | .OR left right, s => denotes mem index left s || denotes mem index right s
  | .AND left right, s => denotes mem index left s && denotes mem index right s
  | .ANDNOT left right, s => denotes mem index left s && !denotes mem index right s

/-- The score of one token for the document `d` in the words of claim C17, with
paths compared bytewise as in the data model of the spec: zero if the word is
not an indexed term or `d` is not in the `paths` set of its posting, otherwise
`log(tf(w, d)) * log(|paths of the index| / |paths of the posting|)` with
`tf(w, d)` the count stored for the path `d`. -/
def claimed_token_score {S : Type} [Zero S] [Mul S] [Div S] (log : S → S)
    (to_double : Int → S) (mem : Ptr → String) (index : index_t) (d : Ptr)
    (w : String) : S :=
  match map_get compare_strings index.map w with
  | none => 0
  | some p =>
    if set_contains (compare_paths mem) p.paths d then
      match map_get (compare_paths mem) p.tf d with
      | some tf =>
        log (to_double tf) * log (to_double (list_size index.paths) / to_double (set_size p.paths))
      | none => 0
    else 0

/-! ## Notions used in the proofs about queries -/

/-- The diagnostic strings of spec section 4.2. -/
def diagnostics : List String :=
  ["empty query string", "unexpected end of query", "expected expression after parenthesis",
    "missing closing parenthesis", "expected expression after OR",
    "expected expression after AND", "expected expression after ANDNOT",
    "extra terms at end of query"]

/-- The diagnostics that the parsing functions give on a cursor that has a
lookahead token. -/
def cursorDiagnostics : List String :=
  ["expected expression after parenthesis", "missing closing parenthesis",
    "expected expression after OR", "expected expression after AND",
    "expected expression after ANDNOT"]

/-- On a cursor with a lookahead token, every error of `f` is one of
`cursorDiagnostics`. -/
def ErrorsListed (f : PState → PResult) : Prop :=
  ∀ s e, f s = some (.error e) → s.currToken ≠ none → e ∈ cursorDiagnostics

/-- No two paths of a posting of the index have the same bytes: every `paths`
set is a set under `compare_strings`. -/
def PathsDistinct (mem : Ptr → String) (index : index_t) : Prop :=
  ∀ e ∈ index.map, (e.2.paths.map mem).Nodup

/-! ## An arithmetic with NaN

The real numbers with one more value for NaN, as far as the order of the
results needs a `double`: an operation on NaN gives NaN, the `log` of a number
that is not positive and a division by zero give NaN (infinities are left
out), and every comparison with NaN is false. -/

/-- A real number or NaN. -/
inductive nan_real : Type
  | nan
  | num (x : ℝ)

/-- The number zero. -/
instance nan_real.instZero : Zero nan_real := ⟨.num 0⟩

/-- The sum, NaN if an operand is. -/
noncomputable instance nan_real.instAdd : Add nan_real :=
  ⟨fun a b =>
    match a, b with
    | .num x, .num y => .num (x + y)
    | _, _ => .nan⟩

/-- The product, NaN if an operand is. -/
noncomputable instance nan_real.instMul : Mul nan_real :=
  ⟨fun a b =>
    match a, b with
    | .num x, .num y => .num (x * y)
    | _, _ => .nan⟩

/-- The quotient, NaN if an operand is or the divisor is zero. -/
noncomputable instance nan_real.instDiv : Div nan_real :=
  ⟨fun a b =>
    match a, b with
    | .num x, .num y => if y = 0 then .nan else .num (x / y)
    | _, _ => .nan⟩

/-- The comparison `<`, false if an operand is NaN. -/
instance nan_real.instLT : LT nan_real :=
  ⟨fun a b =>
    match a, b with
    | .num x, .num y => x < y
    | _, _ => False⟩

/-- The comparison `<=`, false if an operand is NaN. -/
instance nan_real.instLE : LE nan_real :=
  ⟨fun a b =>
    match a, b with
    | .num x, .num y => x ≤ y
    | _, _ => False⟩

/-- The comparison `<` is decided as on the real numbers. -/
noncomputable instance nan_real.instDecidableLT (a b : nan_real) : Decidable (a < b) :=
  Classical.propDecidable _

/-- The natural logarithm of a positive number, NaN elsewhere. -/
noncomputable def nan_log : nan_real → nan_real
  | .num x => if 0 < x then .num (Real.log x) else .nan
  | .nan => .nan

/-- The conversion of an `int`. -/
def nan_of_int (i : Int) : nan_real := .num (i : ℝ)

/-! ## The shape of the parsing functions -/

theorem parse_term_succ (n : Nat) (s : PState) :
    parse_term (n + 1) s = termLevel (parse_andnotterm n) s := rfl

theorem parse_orterm_succ (n : Nat) (s : PState) :
    parse_orterm (n + 1) s = binLevel "OR" .OR (parse_term n) (parse_orterm n) s := rfl

theorem parse_andterm_succ (n : Nat) (s : PState) :
    parse_andterm (n + 1) s = binLevel "AND" .AND (parse_orterm n) (parse_andterm n) s := rfl

theorem parse_andnotterm_succ (n : Nat) (s : PState) :
    parse_andnotterm (n + 1) s
      = binLevel "ANDNOT" .ANDNOT (parse_andterm n) (parse_andnotterm n) s := rfl

/-! ## Fuel -/

theorem termLevel_mono {f g : PState → PResult} (h : Below f g) :
    Below (termLevel f) (termLevel g) := by
  intro s r hr
  unfold termLevel at hr ⊢
  cases hc : s.currToken with
  | none => simpa [hc] using hr
  | some tok =>
    simp only [hc] at hr ⊢
    by_cases ht : tok = "("
    · simp only [ht, if_true] at hr ⊢
      cases hq : s.query with
      | nil => simpa [hq] using hr
      | cons t q =>
        simp only [hq] at hr ⊢
        cases hi : f ⟨q, some t⟩ with
        | none => simp [hi] at hr
        | some x => rw [h _ _ hi]; simpa [hi] using hr
    · simpa [ht] using hr

theorem binLevel_mono (op : String) (mk : querynode → querynode → querynode)
    {f g f2 g2 : PState → PResult} (h : Below f g) (h2 : Below f2 g2) :
    Below (binLevel op mk f f2) (binLevel op mk g g2) := by
  intro s r hr
  unfold binLevel at hr ⊢
  cases hi : f s with
  | none => simp [hi] at hr
  | some x =>
    rw [h _ _ hi]
    simp only [hi] at hr
    cases x with
    | error e => exact hr
    | ok p =>
      obtain ⟨a, s1⟩ := p
      simp only at hr ⊢
      by_cases hop : s1.currToken = some op
      · simp only [hop, if_true] at hr ⊢
        cases hq : s1.query with
        | nil => simpa [hq] using hr
        | cons t q =>
          simp only [hq] at hr ⊢
          cases hj : f2 ⟨q, some t⟩ with
          | none => simp [hj] at hr
          | some y => rw [h2 _ _ hj]; simpa [hj] using hr
      · simpa [hop] using hr

theorem parse_fuel_succ (n : Nat) :
    Below (parse_term n) (parse_term (n + 1)) ∧
    Below (parse_orterm n) (parse_orterm (n + 1)) ∧
    Below (parse_andterm n) (parse_andterm (n + 1)) ∧
    Below (parse_andnotterm n) (parse_andnotterm (n + 1)) := by
  induction n with
  | zero =>
    refine ⟨?_, ?_, ?_, ?_⟩ <;> intro s r hr <;> simp [parse_term, parse_orterm, parse_andterm, parse_andnotterm] at hr
  | succ n ih =>
    obtain ⟨h0, h1, h2, h3⟩ := ih
    refine ⟨?_, ?_, ?_, ?_⟩
    · intro s r hr
      rw [parse_term_succ] at hr ⊢
      exact termLevel_mono h3 s r hr
    · intro s r hr
      rw [parse_orterm_succ] at hr ⊢
      exact binLevel_mono _ _ h0 h1 s r hr
    · intro s r hr
      rw [parse_andterm_succ] at hr ⊢
      exact binLevel_mono _ _ h1 h2 s r hr
    · intro s r hr
      rw [parse_andnotterm_succ] at hr ⊢
      exact binLevel_mono _ _ h2 h3 s r hr

theorem parse_fuel_le {n m : Nat} (hnm : n ≤ m) :
    Below (parse_term n) (parse_term m) ∧
    Below (parse_orterm n) (parse_orterm m) ∧
    Below (parse_andterm n) (parse_andterm m) ∧
    Below (parse_andnotterm n) (parse_andnotterm m) := by
  induction hnm with
  | refl => exact ⟨fun _ _ h => h, fun _ _ h => h, fun _ _ h => h, fun _ _ h => h⟩
  | step _ ih =>
    obtain ⟨h0, h1, h2, h3⟩ := ih
    obtain ⟨k0, k1, k2, k3⟩ := parse_fuel_succ _
    exact ⟨fun s r h => k0 s r (h0 s r h), fun s r h => k1 s r (h1 s r h),
      fun s r h => k2 s r (h2 s r h), fun s r h => k3 s r (h3 s r h)⟩

theorem next_token_length (s : PState) : (next_token s).query.length ≤ s.query.length := by
  unfold next_token
  cases hq : s.query with
  | nil => simp
  | cons t q => simp

theorem termLevel_shorter {f : PState → PResult} (h : Shorter f) : Shorter (termLevel f) := by
  intro s t s1 hr
  unfold termLevel at hr
  cases hc : s.currToken with
  | none => simp [hc] at hr
  | some tok =>
    simp only [hc] at hr
    by_cases ht : tok = "("
    · simp only [ht, if_true] at hr
      cases hq : s.query with
      | nil => simp [hq] at hr
      | cons t0 q =>
        simp only [hq] at hr
        cases hi : f ⟨q, some t0⟩ with
        | none => simp [hi] at hr
        | some x =>
          cases x with
          | error e => simp [hi] at hr
          | ok p =>
            obtain ⟨a, s2⟩ := p
            simp only [hi] at hr
            by_cases hp : s2.currToken = some ")"
            · simp only [hp, ne_eq, not_true_eq_false, if_false, Option.some.injEq,
                Except.ok.injEq, Prod.mk.injEq] at hr
              have h1 := h _ _ _ hi
              have h2 := next_token_length s2
              rw [← hr.2]
              simp only [List.length_cons] at h1 ⊢
              omega
            · simp [hp] at hr
    · simp only [ht, if_false, Option.some.injEq, Except.ok.injEq, Prod.mk.injEq] at hr
      rw [← hr.2]
      exact next_token_length s

theorem binLevel_shorter (op : String) (mk : querynode → querynode → querynode)
    {f g : PState → PResult} (h : Shorter f) (h2 : Shorter g) :
    Shorter (binLevel op mk f g) := by
  intro s t s1 hr
  unfold binLevel at hr
  cases hi : f s with
  | none => simp [hi] at hr
  | some x =>
    cases x with
    | error e => simp [hi] at hr
    | ok p =>
      obtain ⟨a, s2⟩ := p
      simp only [hi] at hr
      have h1 := h _ _ _ hi
      by_cases hop : s2.currToken = some op
      · simp only [hop, if_true] at hr
        cases hq : s2.query with
        | nil => simp [hq] at hr
        | cons t0 q =>
          simp only [hq] at hr
          cases hj : g ⟨q, some t0⟩ with
          | none => simp [hj] at hr
          | some y =>
            cases y with
            | error e => simp [hj] at hr
            | ok p2 =>
              obtain ⟨b, s3⟩ := p2
              simp only [hj, Option.some.injEq, Except.ok.injEq, Prod.mk.injEq] at hr
              have h3 := h2 _ _ _ hj
              rw [hq] at h1
              rw [← hr.2]
              simp only [List.length_cons] at h1 h3
              omega
      · simp only [hop, if_false, Option.some.injEq, Except.ok.injEq, Prod.mk.injEq] at hr
        rw [← hr.2]
        exact h1

theorem parse_shorter (n : Nat) :
    Shorter (parse_term n) ∧ Shorter (parse_orterm n) ∧
    Shorter (parse_andterm n) ∧ Shorter (parse_andnotterm n) := by
  induction n with
  | zero =>
    refine ⟨?_, ?_, ?_, ?_⟩ <;> intro s t s1 hr <;>
      simp [parse_term, parse_orterm, parse_andterm, parse_andnotterm] at hr
  | succ n ih =>
    obtain ⟨h0, h1, h2, h3⟩ := ih
    exact ⟨termLevel_shorter h3, binLevel_shorter _ _ h0 h1, binLevel_shorter _ _ h1 h2,
      binLevel_shorter _ _ h2 h3⟩

theorem termLevel_total {f : PState → PResult} {m : Nat}
    (h : ∀ s, s.query.length < m → ∃ r, f s = some r) : AnswersUpTo (termLevel f) m := by
  intro s hs
  unfold termLevel
  cases hc : s.currToken with
  | none => exact ⟨_, rfl⟩
  | some tok =>
    simp only
    by_cases ht : tok = "("
    · simp only [ht, if_true]
      cases hq : s.query with
      | nil => exact ⟨_, rfl⟩
      | cons t0 q =>
        simp only
        rw [hq] at hs
        obtain ⟨r, hr⟩ := h ⟨q, some t0⟩ (by simp only [List.length_cons] at hs ⊢; omega)
        rw [hr]
        cases r with
        | error e => exact ⟨_, rfl⟩
        | ok p =>
          obtain ⟨a, s2⟩ := p
          simp only
          split <;> exact ⟨_, rfl⟩
    · simp only [ht, if_false]
      exact ⟨_, rfl⟩

theorem binLevel_total (op : String) (mk : querynode → querynode → querynode)
    {f g : PState → PResult} {m : Nat} (hf : AnswersUpTo f m) (hs : Shorter f)
    (hg : ∀ s, s.query.length < m → ∃ r, g s = some r) :
    AnswersUpTo (binLevel op mk f g) m := by
  intro s hm
  unfold binLevel
  obtain ⟨r, hr⟩ := hf s hm
  rw [hr]
  cases r with
  | error e => exact ⟨_, rfl⟩
  | ok p =>
    obtain ⟨a, s2⟩ := p
    simp only
    have h1 := hs _ _ _ hr
    by_cases hop : s2.currToken = some op
    · simp only [hop, if_true]
      cases hq : s2.query with
      | nil => exact ⟨_, rfl⟩
      | cons t0 q =>
        simp only
        rw [hq] at h1
        obtain ⟨r2, hr2⟩ := hg ⟨q, some t0⟩ (by simp only [List.length_cons] at h1 ⊢; omega)
        rw [hr2]
        cases r2 with
        | error e => exact ⟨_, rfl⟩
        | ok p2 => exact ⟨_, rfl⟩
    · simp only [hop, if_false]
      exact ⟨_, rfl⟩

theorem parse_total (k : Nat) :
    AnswersUpTo (parse_term (4 * k + 1)) k ∧ AnswersUpTo (parse_orterm (4 * k + 2)) k ∧
    AnswersUpTo (parse_andterm (4 * k + 3)) k ∧ AnswersUpTo (parse_andnotterm (4 * k + 4)) k := by
  induction k using Nat.strong_induction_on with
  | _ k ih =>
    have e1 (n : Nat) (s : PState) (hs : s.query.length < k) (hn : 4 * k ≤ n + 2) :
        ∃ r, parse_orterm n s = some r := by
      obtain ⟨r, hr⟩ := (ih _ hs).2.1 s le_rfl
      exact ⟨r, (parse_fuel_le (by omega)).2.1 s r hr⟩
    have e2 (n : Nat) (s : PState) (hs : s.query.length < k) (hn : 4 * k ≤ n + 1) :
        ∃ r, parse_andterm n s = some r := by
      obtain ⟨r, hr⟩ := (ih _ hs).2.2.1 s le_rfl
      exact ⟨r, (parse_fuel_le (by omega)).2.2.1 s r hr⟩
    have e3 (n : Nat) (s : PState) (hs : s.query.length < k) (hn : 4 * k ≤ n) :
        ∃ r, parse_andnotterm n s = some r := by
      obtain ⟨r, hr⟩ := (ih _ hs).2.2.2 s le_rfl
      exact ⟨r, (parse_fuel_le (by omega)).2.2.2 s r hr⟩
    have t0 : AnswersUpTo (parse_term (4 * k + 1)) k :=
      termLevel_total (fun s hs => e3 _ s hs (by omega))
    have t1 : AnswersUpTo (parse_orterm (4 * k + 2)) k :=
      binLevel_total _ _ t0 (parse_shorter _).1 (fun s hs => e1 _ s hs (by omega))
    have t2 : AnswersUpTo (parse_andterm (4 * k + 3)) k :=
      binLevel_total _ _ t1 (parse_shorter _).2.1 (fun s hs => e2 _ s hs (by omega))
    have t3 : AnswersUpTo (parse_andnotterm (4 * k + 4)) k :=
      binLevel_total _ _ t2 (parse_shorter _).2.2.1 (fun s hs => e3 _ s hs (by omega))
    exact ⟨t0, t1, t2, t3⟩

theorem parse_query_cons (t : String) (rest : List String) :
    parse_query (t :: rest) =
      match parse_andnotterm (4 * (rest.length + 1)) ⟨rest, some t⟩ with
      | none => none
      | some (.error e) => some (.error e)
      | some (.ok (r, s)) =>
        if s.currToken ≠ none then some (.error "extra terms at end of query")
        else some (.ok r) := rfl

/-- The fuel that `parse_query` supplies is enough: it always answers. -/
theorem parse_query_total (q : List String) : ∃ r, parse_query q = some r := by
  cases q with
  | nil => exact ⟨_, rfl⟩
  | cons t rest =>
    rw [parse_query_cons]
    obtain ⟨r, hr⟩ := (parse_total rest.length).2.2.2 ⟨rest, some t⟩ le_rfl
    have e : 4 * (rest.length + 1) = 4 * rest.length + 4 := by omega
    rw [e, hr]
    cases r with
    | error e => exact ⟨_, rfl⟩
    | ok p =>
      obtain ⟨a, s⟩ := p
      simp only
      split <;> exact ⟨_, rfl⟩

/-- With any amount of fuel that yields an answer, `parse_andnotterm` on the
start cursor of a query gives the answer that `parse_query` works with. -/
theorem parse_andnotterm_fuel (t : String) (rest : List String) (n : Nat)
    (r : Except String (querynode × PState))
    (h : parse_andnotterm n ⟨rest, some t⟩ = some r) :
    parse_andnotterm (4 * (rest.length + 1)) ⟨rest, some t⟩ = some r := by
  obtain ⟨r2, hr2⟩ := (parse_total rest.length).2.2.2 ⟨rest, some t⟩ le_rfl
  have e : 4 * (rest.length + 1) = 4 * rest.length + 4 := by omega
  rw [e]
  have a1 := (parse_fuel_le (Nat.le_max_left n (4 * rest.length + 4))).2.2.2 _ _ h
  have a2 := (parse_fuel_le (Nat.le_max_right n (4 * rest.length + 4))).2.2.2 _ _ hr2
  rw [a1] at a2
  rw [hr2, ← a2]

/-! ## Appending tokens to a query that parses -/

theorem next_token_some (s : PState) (c : String) (h : (next_token s).currToken = some c)
    (suf : List String) :
    next_token ⟨s.query ++ suf, s.currToken⟩ = ⟨(next_token s).query ++ suf, some c⟩ := by
  unfold next_token at h ⊢
  cases hq : s.query with
  | nil => simp [hq] at h
  | cons t q =>
    simp only [hq] at h
    simp only [List.cons_append]
    simp only [Option.some.injEq] at h
    rw [h]

theorem next_token_none (s : PState) (h : (next_token s).currToken = none)
    (X : String) (suf : List String) :
    next_token ⟨s.query ++ X :: suf, s.currToken⟩ = ⟨suf, some X⟩ := by
  unfold next_token at h ⊢
  cases hq : s.query with
  | nil => simp
  | cons t q => simp [hq] at h

theorem termLevel_ext {ops : List String} {f : PState → PResult} (hf : ExtendsWith ops f) :
    ExtendsWith [] (termLevel f) := by
  intro s t s1 hr
  unfold termLevel at hr
  cases hc : s.currToken with
  | none => simp [hc] at hr
  | some tok =>
    simp only [hc] at hr
    by_cases ht : tok = "("
    · simp only [ht, if_true] at hr
      cases hq : s.query with
      | nil => simp [hq] at hr
      | cons t0 q =>
        simp only [hq] at hr
        cases hi : f ⟨q, some t0⟩ with
        | none => simp [hi] at hr
        | some x =>
          cases x with
          | error e => simp [hi] at hr
          | ok p =>
            obtain ⟨a, s2⟩ := p
            simp only [hi] at hr
            by_cases hp : s2.currToken = some ")"
            · simp only [hp, ne_eq, not_true_eq_false, if_false, Option.some.injEq,
                Except.ok.injEq, Prod.mk.injEq] at hr
              obtain ⟨rfl, rfl⟩ := hr
              have fa := (hf _ _ _ hi).1 ")" hp
              simp only at fa
              refine ⟨?_, ?_, ?_⟩
              · intro c hcs suf
                unfold termLevel
                simp only [ht, if_true, List.cons_append, fa suf, ne_eq, not_true_eq_false,
                  if_false]
                have := next_token_some s2 c hcs suf
                rw [hp] at this
                rw [this]
              · intro hn X suf _
                unfold termLevel
                simp only [ht, if_true, List.cons_append, fa (X :: suf), ne_eq,
                  not_true_eq_false, if_false]
                have := next_token_none s2 hn X suf
                rw [hp] at this
                rw [this]
              · intro _ X hX
                simp at hX
            · simp [hp] at hr
    · simp only [ht, if_false, Option.some.injEq, Except.ok.injEq, Prod.mk.injEq] at hr
      obtain ⟨rfl, rfl⟩ := hr
      refine ⟨?_, ?_, ?_⟩
      · intro c hcs suf
        unfold termLevel
        simp only [ht, if_false]
        have := next_token_some s c hcs suf
        rw [hc] at this
        rw [this]
      · intro hn X suf _
        unfold termLevel
        simp only [ht, if_false]
        have := next_token_none s hn X suf
        rw [hc] at this
        rw [this]
      · intro _ X hX
        simp at hX

theorem binLevel_ext (op : String) (mk : querynode → querynode → querynode)
    {ops : List String} {f g : PState → PResult}
    (hf : ExtendsWith ops f) (hg : ExtendsWith (op :: ops) g) :
    ExtendsWith (op :: ops) (binLevel op mk f g) := by
  intro s t s1 hr
  unfold binLevel at hr
  cases hi : f s with
  | none => simp [hi] at hr
  | some x =>
    cases x with
    | error e => simp [hi] at hr
    | ok p =>
      obtain ⟨a, s2⟩ := p
      simp only [hi] at hr
      obtain ⟨fa, fb, fc⟩ := hf _ _ _ hi
      by_cases hop : s2.currToken = some op
      · simp only [hop, if_true] at hr
        cases hq : s2.query with
        | nil => simp [hq] at hr
        | cons t0 q =>
          simp only [hq] at hr
          cases hj : g ⟨q, some t0⟩ with
          | none => simp [hj] at hr
          | some y =>
            cases y with
            | error e => simp [hj] at hr
            | ok p2 =>
              obtain ⟨b, s3⟩ := p2
              simp only [hj, Option.some.injEq, Except.ok.injEq, Prod.mk.injEq] at hr
              obtain ⟨rfl, rfl⟩ := hr
              obtain ⟨ga, gb, gc⟩ := hg _ _ _ hj
              simp only at ga gb gc
              have fa2 := fa op hop
              rw [hq] at fa2
              simp only [List.cons_append] at fa2
              refine ⟨?_, ?_, ?_⟩
              · intro c hcs suf
                unfold binLevel
                simp only [fa2 suf, if_true, ga c hcs suf]
              · intro hn X suf hX
                unfold binLevel
                simp only [fa2 (X :: suf), if_true, gb hn X suf hX]
              · intro hn X hX
                unfold binLevel
                simp only [fa2 [X], if_true, gc hn X hX]
      · simp only [hop, if_false, Option.some.injEq, Except.ok.injEq, Prod.mk.injEq] at hr
        obtain ⟨rfl, rfl⟩ := hr
        refine ⟨?_, ?_, ?_⟩
        · intro c hcs suf
          unfold binLevel
          have hne : ¬ (some c = some op) := by rw [← hcs]; exact hop
          simp only [fa c hcs suf, hne, if_false]
        · intro hn X suf hX
          have hX1 : X ≠ op := fun h => hX (by simp [h])
          have hX2 : X ∉ ops := fun h => hX (by simp [h])
          unfold binLevel
          have hne : ¬ (some X = some op) := by simpa using hX1
          simp only [fb hn X suf hX2, hne, if_false]
        · intro hn X hX
          unfold binLevel
          by_cases hX2 : X ∈ ops
          · simp only [fc hn X hX2]
          · have hX1 : X = op := by
              rcases List.mem_cons.mp hX with h | h
              · exact h
              · exact absurd h hX2
            subst hX1
            simp only [fb hn X [] hX2, if_true]

theorem parse_ext (n : Nat) :
    ExtendsWith [] (parse_term n) ∧ ExtendsWith ["OR"] (parse_orterm n) ∧
    ExtendsWith ["AND", "OR"] (parse_andterm n) ∧
    ExtendsWith ["ANDNOT", "AND", "OR"] (parse_andnotterm n) := by
  induction n with
  | zero =>
    refine ⟨?_, ?_, ?_, ?_⟩ <;> intro s t s1 hr <;>
      simp [parse_term, parse_orterm, parse_andterm, parse_andnotterm] at hr
  | succ n ih =>
    obtain ⟨h0, h1, h2, h3⟩ := ih
    exact ⟨termLevel_ext h3, binLevel_ext _ _ h0 h1, binLevel_ext _ _ h1 h2,
      binLevel_ext _ _ h2 h3⟩

/-! ## Parsing a serialized tree -/

theorem binLevel_pass (op : String) (mk : querynode → querynode → querynode)
    {f g : PState → PResult} {s s1 : PState} {a : querynode}
    (h : f s = some (.ok (a, s1))) (hop : s1.currToken ≠ some op) :
    binLevel op mk f g s = some (.ok (a, s1)) := by
  unfold binLevel
  simp only [h, hop, if_false]

theorem binLevel_node (op : String) (mk : querynode → querynode → querynode)
    {f g : PState → PResult} {s s2 : PState} {a b : querynode} {t0 : String}
    {q : List String}
    (h : f s = some (.ok (a, ⟨t0 :: q, some op⟩)))
    (h2 : g ⟨q, some t0⟩ = some (.ok (b, s2))) :
    binLevel op mk f g s = some (.ok (mk a b, s2)) := by
  unfold binLevel
  simp only [h, if_true, h2]

theorem parses_orterm_pass {s s1 : PState} {a : querynode}
    (h : Parses parse_term s (.ok (a, s1))) (hop : s1.currToken ≠ some "OR") :
    Parses parse_orterm s (.ok (a, s1)) := by
  obtain ⟨n, hn⟩ := h
  exact ⟨n + 1, binLevel_pass _ _ hn hop⟩

theorem parses_andterm_pass {s s1 : PState} {a : querynode}
    (h : Parses parse_orterm s (.ok (a, s1))) (hop : s1.currToken ≠ some "AND") :
    Parses parse_andterm s (.ok (a, s1)) := by
  obtain ⟨n, hn⟩ := h
  exact ⟨n + 1, binLevel_pass _ _ hn hop⟩

theorem parses_andnotterm_pass {s s1 : PState} {a : querynode}
    (h : Parses parse_andterm s (.ok (a, s1))) (hop : s1.currToken ≠ some "ANDNOT") :
    Parses parse_andnotterm s (.ok (a, s1)) := by
  obtain ⟨n, hn⟩ := h
  exact ⟨n + 1, binLevel_pass _ _ hn hop⟩

theorem parses_orterm_node {s s2 : PState} {a b : querynode} {t0 : String} {q : List String}
    (h : Parses parse_term s (.ok (a, ⟨t0 :: q, some "OR"⟩)))
    (h2 : Parses parse_orterm ⟨q, some t0⟩ (.ok (b, s2))) :
    Parses parse_orterm s (.ok (.OR a b, s2)) := by
  obtain ⟨n, hn⟩ := h
  obtain ⟨m, hm⟩ := h2
  refine ⟨max n m + 1, ?_⟩
  exact binLevel_node _ _ ((parse_fuel_le (Nat.le_max_left n m)).1 _ _ hn)
    ((parse_fuel_le (Nat.le_max_right n m)).2.1 _ _ hm)

theorem parses_andterm_node {s s2 : PState} {a b : querynode} {t0 : String} {q : List String}
    (h : Parses parse_orterm s (.ok (a, ⟨t0 :: q, some "AND"⟩)))
    (h2 : Parses parse_andterm ⟨q, some t0⟩ (.ok (b, s2))) :
    Parses parse_andterm s (.ok (.AND a b, s2)) := by
  obtain ⟨n, hn⟩ := h
  obtain ⟨m, hm⟩ := h2
  refine ⟨max n m + 1, ?_⟩
  exact binLevel_node _ _ ((parse_fuel_le (Nat.le_max_left n m)).2.1 _ _ hn)
    ((parse_fuel_le (Nat.le_max_right n m)).2.2.1 _ _ hm)

theorem parses_andnotterm_node {s s2 : PState} {a b : querynode} {t0 : String}
    {q : List String}
    (h : Parses parse_andterm s (.ok (a, ⟨t0 :: q, some "ANDNOT"⟩)))
    (h2 : Parses parse_andnotterm ⟨q, some t0⟩ (.ok (b, s2))) :
    Parses parse_andnotterm s (.ok (.ANDNOT a b, s2)) := by
  obtain ⟨n, hn⟩ := h
  obtain ⟨m, hm⟩ := h2
  refine ⟨max n m + 1, ?_⟩
  exact binLevel_node _ _ ((parse_fuel_le (Nat.le_max_left n m)).2.2.1 _ _ hn)
    ((parse_fuel_le (Nat.le_max_right n m)).2.2.2 _ _ hm)

theorem parses_term_paren {s1 : PState} {a : querynode} {t0 : String} {q : List String}
    (h : Parses parse_andnotterm ⟨q, some t0⟩ (.ok (a, s1))) (hc : s1.currToken = some ")") :
    Parses parse_term ⟨t0 :: q, some "("⟩ (.ok (a, next_token s1)) := by
  obtain ⟨n, hn⟩ := h
  refine ⟨n + 1, ?_⟩
  rw [parse_term_succ]
  unfold termLevel
  simp only [if_true, hn, hc, ne_eq, not_true_eq_false, if_false]

theorem parses_term_word (w : String) (q : List String) (hw : w ≠ "(") :
    Parses parse_term ⟨q, some w⟩ (.ok (.WORD w, next_token ⟨q, none⟩)) := by
  refine ⟨1, ?_⟩
  rw [parse_term_succ]
  unfold termLevel
  simp only [hw, if_false]
  rfl

theorem serialize_cons (t : querynode) : ∃ h tl, serialize t = h :: tl := by
  cases t <;> exact ⟨_, _, rfl⟩

/-- A term that is followed by `)` is also an `orterm`, an `andterm` and an
`andnotterm`. -/
theorem parses_closing {s : PState} {a : querynode} {q : List String}
    (h : Parses parse_term s (.ok (a, ⟨q, some ")"⟩))) :
    Parses parse_orterm s (.ok (a, ⟨q, some ")"⟩)) ∧
    Parses parse_andterm s (.ok (a, ⟨q, some ")"⟩)) ∧
    Parses parse_andnotterm s (.ok (a, ⟨q, some ")"⟩)) := by
  have h1 := parses_orterm_pass h (by simp)
  have h2 := parses_andterm_pass h1 (by simp)
  exact ⟨h1, h2, parses_andnotterm_pass h2 (by simp)⟩

theorem parses_term_serialize (t : querynode) (hw : ∀ w ∈ leaves t, w ∉ reservedTokens) :
    ∀ suf : List String,
      Parses parse_term (next_token ⟨serialize t ++ suf, none⟩)
        (.ok (t, next_token ⟨suf, none⟩)) := by
  induction t with
  | WORD w =>
    intro suf
    have h1 : w ≠ "(" := by
      have := hw w (by simp [leaves])
      intro h
      exact this (by simp [h, reservedTokens])
    exact parses_term_word w suf h1
  | OR l r ihl ihr =>
    intro suf
    have hl := ihl (fun w h => hw w (by simp [leaves, h]))
      ("OR" :: (serialize r ++ ")" :: suf))
    have hr := ihr (fun w h => hw w (by simp [leaves, h])) (")" :: suf)
    obtain ⟨h1, t1, e1⟩ := serialize_cons l
    obtain ⟨h2, t2, e2⟩ := serialize_cons r
    rw [e1] at hl
    rw [e2] at hr hl
    simp only [next_token, List.cons_append] at hl hr
    have hr1 := (parses_closing hr).1
    have ho := parses_orterm_node hl hr1
    have ha := parses_andnotterm_pass (parses_andterm_pass ho (by simp)) (by simp)
    have hp := parses_term_paren ha rfl
    simp only [serialize, e1, e2, next_token, List.cons_append, List.append_assoc] at hp ⊢
    exact hp
  | AND l r ihl ihr =>
    intro suf
    have hl := ihl (fun w h => hw w (by simp [leaves, h]))
      ("AND" :: (serialize r ++ ")" :: suf))
    have hr := ihr (fun w h => hw w (by simp [leaves, h])) (")" :: suf)
    obtain ⟨h1, t1, e1⟩ := serialize_cons l
    obtain ⟨h2, t2, e2⟩ := serialize_cons r
    rw [e1] at hl
    rw [e2] at hr hl
    simp only [next_token, List.cons_append] at hl hr
    have hr2 := (parses_closing hr).2.1
    have ho := parses_andterm_node (parses_orterm_pass hl (by simp)) hr2
    have ha := parses_andnotterm_pass ho (by simp)
    have hp := parses_term_paren ha rfl
    simp only [serialize, e1, e2, next_token, List.cons_append, List.append_assoc] at hp ⊢
    exact hp
  | ANDNOT l r ihl ihr =>
    intro suf
    have hl := ihl (fun w h => hw w (by simp [leaves, h]))
      ("ANDNOT" :: (serialize r ++ ")" :: suf))
    have hr := ihr (fun w h => hw w (by simp [leaves, h])) (")" :: suf)
    obtain ⟨h1, t1, e1⟩ := serialize_cons l
    obtain ⟨h2, t2, e2⟩ := serialize_cons r
    rw [e1] at hl
    rw [e2] at hr hl
    simp only [next_token, List.cons_append] at hl hr
    have hr3 := (parses_closing hr).2.2
    have ho := parses_andnotterm_node
      (parses_andterm_pass (parses_orterm_pass hl (by simp)) (by simp)) hr3
    have hp := parses_term_paren ho rfl
    simp only [serialize, e1, e2, next_token, List.cons_append, List.append_assoc] at hp ⊢
    exact hp

/-! ## Leaves of a parsed tree -/

theorem termLevel_leaf {f : PState → PResult} (h : NoParenLeaf f) :
    NoParenLeaf (termLevel f) := by
  intro s t s1 hr
  unfold termLevel at hr
  cases hc : s.currToken with
  | none => simp [hc] at hr
  | some tok =>
    simp only [hc] at hr
    by_cases ht : tok = "("
    · simp only [ht, if_true] at hr
      cases hq : s.query with
      | nil => simp [hq] at hr
      | cons t0 q =>
        simp only [hq] at hr
        cases hi : f ⟨q, some t0⟩ with
        | none => simp [hi] at hr
        | some x =>
          cases x with
          | error e => simp [hi] at hr
          | ok p =>
            obtain ⟨a, s2⟩ := p
            simp only [hi] at hr
            by_cases hp : s2.currToken = some ")"
            · simp only [hp, ne_eq, not_true_eq_false, if_false, Option.some.injEq,
                Except.ok.injEq, Prod.mk.injEq] at hr
              rw [← hr.1]
              exact h _ _ _ hi
            · simp [hp] at hr
    · simp only [ht, if_false, Option.some.injEq, Except.ok.injEq, Prod.mk.injEq] at hr
      rw [← hr.1]
      intro w hw
      simp only [leaves, List.mem_singleton] at hw
      rw [hw]
      exact ht

theorem binLevel_leaf (op : String) (mk : querynode → querynode → querynode)
    (hmk : ∀ a b, leaves (mk a b) = leaves a ++ leaves b)
    {f g : PState → PResult} (h : NoParenLeaf f) (h2 : NoParenLeaf g) :
    NoParenLeaf (binLevel op mk f g) := by
  intro s t s1 hr
  unfold binLevel at hr
  cases hi : f s with
  | none => simp [hi] at hr
  | some x =>
    cases x with
    | error e => simp [hi] at hr
    | ok p =>
      obtain ⟨a, s2⟩ := p
      simp only [hi] at hr
      by_cases hop : s2.currToken = some op
      · simp only [hop, if_true] at hr
        cases hq : s2.query with
        | nil => simp [hq] at hr
        | cons t0 q =>
          simp only [hq] at hr
          cases hj : g ⟨q, some t0⟩ with
          | none => simp [hj] at hr
          | some y =>
            cases y with
            | error e => simp [hj] at hr
            | ok p2 =>
              obtain ⟨b, s3⟩ := p2
              simp only [hj, Option.some.injEq, Except.ok.injEq, Prod.mk.injEq] at hr
              rw [← hr.1, hmk]
              intro w hw
              rcases List.mem_append.mp hw with hw | hw
              · exact h _ _ _ hi w hw
              · exact h2 _ _ _ hj w hw
      · simp only [hop, if_false, Option.some.injEq, Except.ok.injEq, Prod.mk.injEq] at hr
        rw [← hr.1]
        exact h _ _ _ hi

theorem parse_leaf (n : Nat) :
    NoParenLeaf (parse_term n) ∧ NoParenLeaf (parse_orterm n) ∧
    NoParenLeaf (parse_andterm n) ∧ NoParenLeaf (parse_andnotterm n) := by
  induction n with
  | zero =>
    refine ⟨?_, ?_, ?_, ?_⟩ <;> intro s t s1 hr <;>
      simp [parse_term, parse_orterm, parse_andterm, parse_andnotterm] at hr
  | succ n ih =>
    obtain ⟨h0, h1, h2, h3⟩ := ih
    exact ⟨termLevel_leaf h3, binLevel_leaf "OR" .OR (fun _ _ => rfl) h0 h1,
      binLevel_leaf "AND" .AND (fun _ _ => rfl) h1 h2,
      binLevel_leaf "ANDNOT" .ANDNOT (fun _ _ => rfl) h2 h3⟩

/-- What a successful `parse_query` says about `parse_andnotterm`: the query
has a first token, and the parse from there ends with no lookahead token. -/
theorem parse_query_ok {q : List String} {t : querynode} (h : parse_query q = some (.ok t)) :
    ∃ t0 rest s, q = t0 :: rest ∧
      parse_andnotterm (4 * (rest.length + 1)) ⟨rest, some t0⟩ = some (.ok (t, s)) ∧
      s.currToken = none := by
  cases q with
  | nil => simp [parse_query] at h
  | cons t0 rest =>
    rw [parse_query_cons] at h
    cases hi : parse_andnotterm (4 * (rest.length + 1)) ⟨rest, some t0⟩ with
    | none => simp [hi] at h
    | some x =>
      cases x with
      | error e => simp [hi] at h
      | ok p =>
        obtain ⟨a, s⟩ := p
        simp only [hi] at h
        by_cases hc : s.currToken = none
        · simp only [hc, ne_eq, not_true_eq_false, if_false, Option.some.injEq,
            Except.ok.injEq] at h
          exact ⟨t0, rest, s, rfl, by rw [← h]; exact hi, hc⟩
        · simp [hc] at h

/-! ## Association lists and sets -/

theorem compare_strings_iff (a b : String) : compare_strings a b = true ↔ a = b := by
  simp [compare_strings]

theorem compare_pointers_iff (a b : Ptr) : compare_pointers a b = true ↔ a = b := by
  simp [compare_pointers]

theorem map_get_put {κ ν : Type} [DecidableEq κ] {cmp : κ → κ → Bool}
    (hc : ∀ a b, cmp a b = true ↔ a = b) (m : List (κ × ν)) (k k2 : κ) (v : ν) :
    map_get cmp (map_put cmp m k v) k2 = if k = k2 then some v else map_get cmp m k2 := by
  induction m with
  | nil => simp [map_put, map_get, hc]
  | cons e m ih =>
    obtain ⟨k1, v1⟩ := e
    by_cases h1 : k1 = k
    · subst h1
      by_cases h2 : k1 = k2 <;> simp [map_put, map_get, hc, h2]
    · by_cases h2 : k1 = k2
      · subst h2
        have h3 : ¬ k = k1 := fun h => h1 h.symm
        simp [map_put, map_get, hc, h1, h3]
      · simp [map_put, map_get, hc, h1, h2, ih]

theorem mem_map_put {κ ν : Type} {cmp : κ → κ → Bool} (m : List (κ × ν)) (k : κ) (v : ν)
    (e : κ × ν) (he : e ∈ map_put cmp m k v) : e ∈ m ∨ e.2 = v := by
  induction m with
  | nil =>
    simp only [map_put, List.mem_singleton] at he
    right; rw [he]
  | cons e1 m ih =>
    obtain ⟨k1, v1⟩ := e1
    simp only [map_put] at he
    split at he
    · rcases List.mem_cons.mp he with h | h
      · right; rw [h]
      · left; exact List.mem_cons_of_mem _ h
    · rcases List.mem_cons.mp he with h | h
      · left; rw [h]; exact List.mem_cons_self _ _
      · rcases ih h with h2 | h2
        · left; exact List.mem_cons_of_mem _ h2
        · right; exact h2

theorem map_put_keys {κ ν : Type} [DecidableEq κ] {cmp : κ → κ → Bool}
    (hc : ∀ a b, cmp a b = true ↔ a = b) (m : List (κ × ν)) (k : κ) (v : ν) :
    (map_put cmp m k v).map Prod.fst
      = if k ∈ m.map Prod.fst then m.map Prod.fst else m.map Prod.fst ++ [k] := by
  induction m with
  | nil => simp [map_put]
  | cons e m ih =>
    obtain ⟨k1, v1⟩ := e
    by_cases h1 : k1 = k
    · subst h1
      simp [map_put, hc]
    · have h3 : ¬ k = k1 := fun h => h1 h.symm
      simp only [map_put, hc, h1, if_false, List.map_cons, ih, List.mem_cons, h3, false_or]
      split <;> simp

theorem map_get_mem {κ ν : Type} {cmp : κ → κ → Bool} (m : List (κ × ν)) (k : κ) (v : ν)
    (h : map_get cmp m k = some v) : ∃ k1, (k1, v) ∈ m := by
  induction m with
  | nil => simp [map_get] at h
  | cons e m ih =>
    obtain ⟨k1, v1⟩ := e
    simp only [map_get] at h
    split at h
    · simp only [Option.some.injEq] at h
      exact ⟨k1, by rw [h]; exact List.mem_cons_self _ _⟩
    · obtain ⟨k2, h2⟩ := ih h
      exact ⟨k2, List.mem_cons_of_mem _ h2⟩

theorem map_get_of_mem {κ ν : Type} {cmp : κ → κ → Bool}
    (hc : ∀ a b, cmp a b = true ↔ a = b) (m : List (κ × ν)) (k : κ) (v : ν)
    (hn : (m.map Prod.fst).Nodup) (h : (k, v) ∈ m) : map_get cmp m k = some v := by
  induction m with
  | nil => simp at h
  | cons e m ih =>
    obtain ⟨k1, v1⟩ := e
    simp only [List.map_cons, List.nodup_cons] at hn
    rcases List.mem_cons.mp h with h1 | h1
    · simp only [Prod.mk.injEq] at h1
      simp [map_get, hc, h1.1, h1.2]
    · have hk : k1 ≠ k := by
        intro hk
        apply hn.1
        rw [hk]
        exact List.mem_map.mpr ⟨(k, v), h1, rfl⟩
      simp only [map_get, hc, hk, if_false]
      exact ih hn.2 h1

theorem map_get_none {κ ν : Type} {cmp : κ → κ → Bool}
    (hc : ∀ a b, cmp a b = true ↔ a = b) (m : List (κ × ν)) (k : κ)
    (h : k ∉ m.map Prod.fst) : map_get cmp m k = none := by
  induction m with
  | nil => rfl
  | cons e m ih =>
    obtain ⟨k1, v1⟩ := e
    simp only [List.map_cons, List.mem_cons, not_or] at h
    have hk : k1 ≠ k := fun hk => h.1 hk.symm
    simp only [map_get, hc, hk, if_false]
    exact ih h.2

theorem set_contains_paths (mem : Ptr → String) (s : List Ptr) (x : Ptr) :
    set_contains (compare_paths mem) s x = true ↔ mem x ∈ s.map mem := by
  simp only [set_contains, List.any_eq_true, compare_paths, compare_strings, beq_iff_eq,
    List.mem_map]

/-! ## One word, one posting -/

theorem index_addpath_step_eq (mem : Ptr → String) (index : index_t) (path : Ptr)
    (word : String) :
    index_addpath_step mem index path word =
      { index with
        map := map_put compare_strings index.map word
          (posting_after mem path (map_get compare_strings index.map word)) } := rfl

theorem index_addpath_loop_paths (mem : Ptr → String) (path : Ptr) (words : List String) :
    ∀ index : index_t, (index_addpath_loop mem index path words).paths = index.paths := by
  induction words with
  | nil => intro index; rfl
  | cons w ws ih => intro index; simp only [index_addpath_loop]; rw [ih]; rfl

theorem index_addpath_paths (mem : Ptr → String) (index : index_t) (path : Ptr)
    (words : List String) :
    (index_addpath mem index path words).paths = index.paths ++ [path] := by
  unfold index_addpath
  rw [index_addpath_loop_paths]

theorem index_addpaths_paths (mem : Ptr → String) (calls : List (Ptr × List String)) :
    ∀ index : index_t,
      (index_addpaths mem index calls).paths = index.paths ++ calls.map Prod.fst := by
  induction calls with
  | nil => intro index; simp [index_addpaths]
  | cons c cs ih =>
    intro index
    obtain ⟨p, ws⟩ := c
    simp only [index_addpaths, ih, index_addpath_paths, List.map_cons, List.append_assoc,
      List.singleton_append]

theorem lookup_step (mem : Ptr → String) (index : index_t) (path : Ptr) (word t : String) :
    map_get compare_strings (index_addpath_step mem index path word).map t =
      if word = t then some (posting_after mem path (map_get compare_strings index.map word))
      else map_get compare_strings index.map t := by
  rw [index_addpath_step_eq]
  exact map_get_put compare_strings_iff _ _ _ _

theorem lookup_loop (mem : Ptr → String) (path : Ptr) (t : String) (words : List String) :
    ∀ index : index_t,
      map_get compare_strings (index_addpath_loop mem index path words).map t =
        (fun o => some (posting_after mem path o))^[words.count t]
          (map_get compare_strings index.map t) := by
  induction words with
  | nil => intro index; rfl
  | cons w ws ih =>
    intro index
    simp only [index_addpath_loop]
    rw [ih, lookup_step]
    by_cases h : w = t
    · subst h
      simp [List.count_cons_self, Function.iterate_succ_apply]
    · have h2 : (w == t) = false := by simpa using h
      simp [List.count_cons, h, h2]

/-! ## Counting occurrences -/

theorem int_wrap_succ (c : Int) : int_wrap (int_wrap c + 1) = int_wrap (c + 1) := by
  unfold int_wrap
  omega

theorem int_wrap_small (c : Int) (h0 : -2147483648 ≤ c) (h1 : c < 2147483648) :
    int_wrap c = c := by
  unfold int_wrap
  omega

theorem tf_lookup_step (mem : Ptr → String) (index : index_t) (path k : Ptr)
    (word t : String) :
    tf_lookup (index_addpath_step mem index path word) t k =
      if word = t ∧ path = k then
        some (match tf_lookup index word path with
          | some v => int_wrap (v + 1)
          | none => 1)
      else tf_lookup index t k := by
  unfold tf_lookup
  rw [lookup_step]
  by_cases h : word = t
  · subst h
    simp only [if_true, Option.bind_some, Option.some_bind, true_and, posting_after]
    rw [map_get_put compare_pointers_iff]
    cases ho : map_get compare_strings index.map word with
    | none =>
      by_cases h2 : path = k
      · simp [h2, create_posting, map_get]
      · simp [h2, create_posting, map_get]
    | some p0 =>
      by_cases h2 : path = k
      · simp [h2]
      · simp [h2]
  · simp [h]

theorem tf_lookup_step_count (mem : Ptr → String) (index : index_t) (path : Ptr)
    (word : String) (cnt : Ptr → String → Nat)
    (h : ∀ t k, tf_lookup index t k = tf_of_count (cnt k t)) (t : String) (k : Ptr) :
    tf_lookup (index_addpath_step mem index path word) t k =
      tf_of_count (cnt k t + if path = k ∧ word = t then 1 else 0) := by
  rw [tf_lookup_step]
  by_cases hc : word = t ∧ path = k
  · obtain ⟨rfl, rfl⟩ := hc
    simp only [and_self, if_true, h]
    unfold tf_of_count
    by_cases h0 : cnt path word = 0
    · simp [h0, int_wrap]
    · simp only [h0, if_false, Nat.add_eq_zero, one_ne_zero, and_false, Nat.cast_add,
        Nat.cast_one, int_wrap_succ]
  · have hc2 : ¬ (path = k ∧ word = t) := fun h2 => hc ⟨h2.2, h2.1⟩
    simp only [hc, hc2, if_false, Nat.add_zero, h]

theorem tf_lookup_loop_count (mem : Ptr → String) (path : Ptr) (words : List String) :
    ∀ (index : index_t) (cnt : Ptr → String → Nat),
      (∀ t k, tf_lookup index t k = tf_of_count (cnt k t)) →
      ∀ t k, tf_lookup (index_addpath_loop mem index path words) t k =
        tf_of_count (cnt k t + if path = k then words.count t else 0) := by
  induction words with
  | nil => intro index cnt h t k; simp [index_addpath_loop, h]
  | cons w ws ih =>
    intro index cnt h t k
    simp only [index_addpath_loop]
    rw [ih _ _ (tf_lookup_step_count mem index path w cnt h)]
    congr 1
    by_cases h1 : path = k <;> by_cases h2 : w = t
    · simp [h1, h2]; omega
    · have : (w == t) = false := by simpa using h2
      simp [h1, h2, List.count_cons, this]
    · simp [h1, h2]
    · simp [h1, h2]

theorem tf_lookup_addpath_count (mem : Ptr → String) (path : Ptr) (words : List String)
    (index : index_t) (cnt : Ptr → String → Nat)
    (h : ∀ t k, tf_lookup index t k = tf_of_count (cnt k t)) (t : String) (k : Ptr) :
    tf_lookup (index_addpath mem index path words) t k =
      tf_of_count (cnt k t + if path = k then words.count t else 0) :=
  tf_lookup_loop_count mem path words { index with paths := index.paths ++ [path] } cnt h t k

theorem tf_lookup_addpaths_count (mem : Ptr → String) (calls : List (Ptr × List String)) :
    ∀ (index : index_t) (cnt : Ptr → String → Nat),
      (∀ t k, tf_lookup index t k = tf_of_count (cnt k t)) →
      ∀ t k, tf_lookup (index_addpaths mem index calls) t k =
        tf_of_count (cnt k t + occurrences calls k t) := by
  induction calls with
  | nil => intro index cnt h t k; simp [index_addpaths, occurrences, h]
  | cons c cs ih =>
    intro index cnt h t k
    obtain ⟨p, ws⟩ := c
    simp only [index_addpaths, occurrences]
    rw [ih _ _ (tf_lookup_addpath_count mem p ws index cnt h), Nat.add_assoc]

/-- The count the index holds after a sequence of calls on the empty index. -/
theorem tf_lookup_reachable (mem : Ptr → String) (calls : List (Ptr × List String))
    (t : String) (k : Ptr) :
    tf_lookup (index_addpaths mem index_create calls) t k
      = tf_of_count (occurrences calls k t) := by
  have h := tf_lookup_addpaths_count mem calls index_create (fun _ _ => 0)
    (fun _ _ => rfl) t k
  simpa using h

/-! ## Invariants of the index -/

theorem postingOK_create (mem : Ptr → String) (docs : List Ptr) :
    PostingOK mem docs create_posting := by
  simp [PostingOK, create_posting]

theorem postingOK_mono (mem : Ptr → String) {docs docs2 : List Ptr} {p : posting_t}
    (h : PostingOK mem docs p) (hs : ∀ x ∈ docs, x ∈ docs2) : PostingOK mem docs2 p :=
  ⟨fun x hx => hs x (h.1 x hx), fun k hk => hs k (h.2.1 k hk), h.2.2.1, h.2.2.2⟩

theorem postingOK_bump (mem : Ptr → String) (docs : List Ptr) (path : Ptr) (v : Int)
    (p : posting_t) (h : PostingOK mem docs p) (hp : path ∈ docs) :
    PostingOK mem docs
      ⟨map_put compare_pointers p.tf path v, set_add (compare_paths mem) p.paths path⟩ := by
  obtain ⟨h1, h2, h3, h4⟩ := h
  have hk := map_put_keys compare_pointers_iff p.tf path v
  refine ⟨?_, ?_, ?_, ?_⟩
  · intro x hx
    simp only [set_add] at hx
    split at hx
    · exact h1 x hx
    · rcases List.mem_append.mp hx with hx | hx
      · exact h1 x hx
      · simp only [List.mem_singleton] at hx
        rw [hx]; exact hp
  · intro k hkm
    simp only [hk] at hkm
    split at hkm
    · exact h2 k hkm
    · rcases List.mem_append.mp hkm with hx | hx
      · exact h2 k hx
      · simp only [List.mem_singleton] at hx
        rw [hx]; exact hp
  · intro s
    have e1 : s ∈ (List.map Prod.fst (map_put compare_pointers p.tf path v)).map mem ↔
        s ∈ (p.tf.map Prod.fst).map mem ∨ s = mem path := by
      simp only [hk]
      split
      · rename_i hin
        constructor
        · intro hs; exact Or.inl hs
        · rintro (hs | hs)
          · exact hs
          · rw [hs]; exact List.mem_map_of_mem mem hin
      · simp only [List.map_append, List.mem_append, List.map_cons, List.map_nil,
          List.mem_singleton]
    have e2 : s ∈ (set_add (compare_paths mem) p.paths path).map mem ↔
        s ∈ p.paths.map mem ∨ s = mem path := by
      simp only [set_add]
      split
      · rename_i hin
        rw [set_contains_paths] at hin
        constructor
        · intro hs; exact Or.inl hs
        · rintro (hs | hs)
          · exact hs
          · rw [hs]; exact hin
      · simp only [List.map_append, List.mem_append, List.map_cons, List.map_nil,
          List.mem_singleton]
    simp only at e1 e2 ⊢
    rw [e1, e2, h3]
  · simp only [hk]
    split
    · exact h4
    · rename_i hnin
      exact List.Nodup.append h4 (List.nodup_singleton _)
        (by
          intro a ha hb
          simp only [List.mem_singleton] at hb
          rw [hb] at ha
          exact hnin ha)

theorem postingOK_after (mem : Ptr → String) (docs : List Ptr) (path : Ptr)
    (o : Option posting_t) (h : ∀ p, o = some p → PostingOK mem docs p) (hp : path ∈ docs) :
    PostingOK mem docs (posting_after mem path o) := by
  cases o with
  | none => exact postingOK_bump mem docs path _ _ (postingOK_create mem docs) hp
  | some p => exact postingOK_bump mem docs path _ _ (h p rfl) hp

theorem indexOK_step (mem : Ptr → String) (index : index_t) (path : Ptr) (word : String)
    (h : IndexOK mem index) (hp : path ∈ index.paths) :
    IndexOK mem (index_addpath_step mem index path word) := by
  rw [index_addpath_step_eq]
  obtain ⟨h1, h2⟩ := h
  have hnew : PostingOK mem index.paths
      (posting_after mem path (map_get compare_strings index.map word)) := by
    apply postingOK_after _ _ _ _ _ hp
    intro p hg
    obtain ⟨k1, hk1⟩ := map_get_mem _ _ _ hg
    exact h1 _ hk1
  refine ⟨?_, ?_⟩
  · intro e he
    rcases mem_map_put _ _ _ e he with h3 | h3
    · exact h1 e h3
    · rw [h3]; exact hnew
  · simp only [map_put_keys compare_strings_iff]
    split
    · exact h2
    · rename_i hnin
      exact List.Nodup.append h2 (List.nodup_singleton _)
        (by
          intro a ha hb
          simp only [List.mem_singleton] at hb
          rw [hb] at ha
          exact hnin ha)

theorem indexOK_loop (mem : Ptr → String) (path : Ptr) (words : List String) :
    ∀ index : index_t, IndexOK mem index → path ∈ index.paths →
      IndexOK mem (index_addpath_loop mem index path words) := by
  induction words with
  | nil => intro index h _; exact h
  | cons w ws ih =>
    intro index h hp
    simp only [index_addpath_loop]
    exact ih _ (indexOK_step mem index path w h hp) hp

theorem indexOK_addpath (mem : Ptr → String) (index : index_t) (path : Ptr)
    (words : List String) (h : IndexOK mem index) :
    IndexOK mem (index_addpath mem index path words) := by
  unfold index_addpath
  apply indexOK_loop
  · exact ⟨fun e he => postingOK_mono mem (h.1 e he) (fun x hx => List.mem_append_left _ hx),
      h.2⟩
  · simp

theorem indexOK_addpaths (mem : Ptr → String) (calls : List (Ptr × List String)) :
    ∀ index : index_t, IndexOK mem index → IndexOK mem (index_addpaths mem index calls) := by
  induction calls with
  | nil => intro index h; exact h
  | cons c cs ih =>
    intro index h
    obtain ⟨p, ws⟩ := c
    simp only [index_addpaths]
    exact ih _ (indexOK_addpath mem index p ws h)

theorem indexOK_reachable (mem : Ptr → String) (calls : List (Ptr × List String)) :
    IndexOK mem (index_addpaths mem index_create calls) :=
  indexOK_addpaths mem calls _ ⟨by simp [index_create], by simp [index_create]⟩

theorem occurrences_le (calls : List (Ptr × List String)) (path : Ptr) (word : String) :
    occurrences calls path word ≤ (calls.map (fun c => c.2.length)).sum := by
  induction calls with
  | nil => simp [occurrences]
  | cons c cs ih =>
    obtain ⟨p, ws⟩ := c
    simp only [occurrences, List.map_cons, List.sum_cons]
    have := List.count_le_length word ws
    split <;> omega

theorem occurrences_eq_zero (calls : List (Ptr × List String)) (path : Ptr) (word : String)
    (h : path ∉ calls.map Prod.fst) : occurrences calls path word = 0 := by
  induction calls with
  | nil => rfl
  | cons c cs ih =>
    obtain ⟨p, ws⟩ := c
    simp only [List.map_cons, List.mem_cons, not_or] at h
    have hp : ¬ p = path := fun e => h.1 e.symm
    simp only [occurrences, hp, if_false, Nat.zero_add]
    exact ih h.2

theorem map_get_key {κ ν : Type} {cmp : κ → κ → Bool}
    (hc : ∀ a b, cmp a b = true ↔ a = b) (m : List (κ × ν)) (k : κ) (v : ν)
    (h : map_get cmp m k = some v) : k ∈ m.map Prod.fst := by
  by_contra hn
  rw [map_get_none hc m k hn] at h
  exact Option.noConfusion h

theorem occurrences_two_replicate (n m : Nat) (w : String) :
    occurrences [((1 : Ptr), List.replicate n w), (1, List.replicate m w)] 1 w = n + m := by
  simp [occurrences, List.count_replicate_self]

theorem tf_lookup_replicate (mem : Ptr → String) (n : Nat) (w : String) :
    tf_lookup (index_addpath mem (index_addpaths mem index_create []) 1 (List.replicate n w))
      w 1 = tf_of_count n := by
  rw [tf_lookup_addpath_count mem 1 _ _ _ (tf_lookup_reachable mem [])]
  simp [occurrences, List.count_replicate_self]

/-- A path added again through a second pointer to the same bytes (the
addresses 3 and 4 both hold `c`) is not added to the `paths` set again, but gets
a `tf` key of its own: the `tf` map is keyed by address. -/
theorem repeated_path_second_pointer :
    memS4 3 = memS4 4 ∧
      (index_addpaths memS4 index_create [(3, ["w"]), (4, ["w"])]).map
        = [("w", ⟨[(3, 1), (4, 1)], [3]⟩)] := by
  decide

/-! ## Diagnostics of the parser -/

theorem termLevel_errors {f : PState → PResult} (h : ErrorsListed f) :
    ErrorsListed (termLevel f) := by
  intro s e hr hs
  unfold termLevel at hr
  cases hc : s.currToken with
  | none => exact absurd hc hs
  | some tok =>
    simp only [hc] at hr
    by_cases ht : tok = "("
    · simp only [ht, if_true] at hr
      cases hq : s.query with
      | nil =>
        simp only [hq, Option.some.injEq, Except.error.injEq] at hr
        rw [← hr]; decide
      | cons t0 q =>
        simp only [hq] at hr
        cases hi : f ⟨q, some t0⟩ with
        | none => simp [hi] at hr
        | some x =>
          cases x with
          | error e2 =>
            simp only [hi, Option.some.injEq, Except.error.injEq] at hr
            rw [← hr]
            exact h _ _ hi (by simp)
          | ok p =>
            obtain ⟨a, s2⟩ := p
            simp only [hi] at hr
            by_cases hp : s2.currToken = some ")"
            · simp [hp] at hr
            · simp only [hp, ne_eq, not_false_eq_true, if_true, Option.some.injEq,
                Except.error.injEq] at hr
              rw [← hr]; decide
    · simp [ht] at hr

theorem binLevel_errors (op : String) (mk : querynode → querynode → querynode)
    (hop : "expected expression after " ++ op ∈ cursorDiagnostics)
    {f g : PState → PResult} (h : ErrorsListed f) (h2 : ErrorsListed g) :
    ErrorsListed (binLevel op mk f g) := by
  intro s e hr hs
  unfold binLevel at hr
  cases hi : f s with
  | none => simp [hi] at hr
  | some x =>
    cases x with
    | error e2 =>
      simp only [hi, Option.some.injEq, Except.error.injEq] at hr
      rw [← hr]
      exact h _ _ hi hs
    | ok p =>
      obtain ⟨a, s2⟩ := p
      simp only [hi] at hr
      by_cases hc : s2.currToken = some op
      · simp only [hc, if_true] at hr
        cases hq : s2.query with
        | nil =>
          simp only [hq, Option.some.injEq, Except.error.injEq] at hr
          rw [← hr]; exact hop
        | cons t0 q =>
          simp only [hq] at hr
          cases hj : g ⟨q, some t0⟩ with
          | none => simp [hj] at hr
          | some y =>
            cases y with
            | error e2 =>
              simp only [hj, Option.some.injEq, Except.error.injEq] at hr
              rw [← hr]
              exact h2 _ _ hj (by simp)
            | ok p2 => simp [hj] at hr
      · simp [hc] at hr

theorem parse_errors (n : Nat) :
    ErrorsListed (parse_term n) ∧ ErrorsListed (parse_orterm n) ∧
    ErrorsListed (parse_andterm n) ∧ ErrorsListed (parse_andnotterm n) := by
  induction n with
  | zero =>
    refine ⟨?_, ?_, ?_, ?_⟩ <;> intro s e hr <;>
      simp [parse_term, parse_orterm, parse_andterm, parse_andnotterm] at hr
  | succ n ih =>
    obtain ⟨h0, h1, h2, h3⟩ := ih
    exact ⟨termLevel_errors h3, binLevel_errors "OR" .OR (by decide) h0 h1,
      binLevel_errors "AND" .AND (by decide) h1 h2,
      binLevel_errors "ANDNOT" .ANDNOT (by decide) h2 h3⟩

/-- The errors of `parse_query`: the empty query, the error of the parsing
functions on the start cursor, or tokens left over. -/
theorem parse_query_error {q : List String} {e : String}
    (h : parse_query q = some (.error e)) :
    (q = [] ∧ e = "empty query string") ∨ e ∈ cursorDiagnostics ∨
      e = "extra terms at end of query" := by
  cases q with
  | nil =>
    left
    simp only [parse_query, Option.some.injEq, Except.error.injEq] at h
    exact ⟨rfl, h.symm⟩
  | cons t0 rest =>
    right
    rw [parse_query_cons] at h
    cases hi : parse_andnotterm (4 * (rest.length + 1)) ⟨rest, some t0⟩ with
    | none => simp [hi] at h
    | some x =>
      cases x with
      | error e2 =>
        simp only [hi, Option.some.injEq, Except.error.injEq] at h
        left
        rw [← h]
        exact (parse_errors _).2.2.2 _ _ hi (by simp)
      | ok p =>
        obtain ⟨a, s⟩ := p
        simp only [hi] at h
        by_cases hc : s.currToken = none
        · simp [hc] at h
        · simp only [hc, ne_eq, not_false_eq_true, if_true, Option.some.injEq,
            Except.error.injEq] at h
          right; exact h.symm

/-! ## Set algebra -/

theorem set_union_bytes (mem : Ptr → String) (a b : List Ptr) (s : String) :
    s ∈ (set_union (compare_paths mem) a b).map mem ↔ s ∈ a.map mem ∨ s ∈ b.map mem := by
  simp only [set_union, List.map_append, List.mem_append]
  constructor
  · rintro (h | h)
    · exact Or.inl h
    · obtain ⟨y, hy, rfl⟩ := List.mem_map.mp h
      exact Or.inr (List.mem_map_of_mem mem (List.mem_filter.mp hy).1)
  · rintro (h | h)
    · exact Or.inl h
    · obtain ⟨y, hy, rfl⟩ := List.mem_map.mp h
      by_cases hc : set_contains (compare_paths mem) a y = true
      · exact Or.inl ((set_contains_paths mem a y).mp hc)
      · right
        exact List.mem_map_of_mem mem (List.mem_filter.mpr ⟨hy, by simpa using hc⟩)

theorem set_intersection_bytes (mem : Ptr → String) (a b : List Ptr) (s : String) :
    s ∈ (set_intersection (compare_paths mem) a b).map mem ↔
      s ∈ a.map mem ∧ s ∈ b.map mem := by
  simp only [set_intersection]
  constructor
  · intro h
    obtain ⟨y, hy, rfl⟩ := List.mem_map.mp h
    obtain ⟨h1, h2⟩ := List.mem_filter.mp hy
    exact ⟨List.mem_map_of_mem mem h1, (set_contains_paths mem b y).mp h2⟩
  · rintro ⟨h1, h2⟩
    obtain ⟨y, hy, rfl⟩ := List.mem_map.mp h1
    exact List.mem_map_of_mem mem
      (List.mem_filter.mpr ⟨hy, (set_contains_paths mem b y).mpr h2⟩)

theorem set_difference_bytes (mem : Ptr → String) (a b : List Ptr) (s : String) :
    s ∈ (set_difference (compare_paths mem) a b).map mem ↔
      s ∈ a.map mem ∧ s ∉ b.map mem := by
  simp only [set_difference]
  constructor
  · intro h
    obtain ⟨y, hy, rfl⟩ := List.mem_map.mp h
    obtain ⟨h1, h2⟩ := List.mem_filter.mp hy
    refine ⟨List.mem_map_of_mem mem h1, fun hb => ?_⟩
    rw [(set_contains_paths mem b y).mpr hb] at h2
    simp at h2
  · rintro ⟨h1, h2⟩
    obtain ⟨y, hy, rfl⟩ := List.mem_map.mp h1
    refine List.mem_map_of_mem mem (List.mem_filter.mpr ⟨hy, ?_⟩)
    cases hc : set_contains (compare_paths mem) b y with
    | false => rfl
    | true => exact absurd ((set_contains_paths mem b y).mp hc) h2

theorem set_difference_self (mem : Ptr → String) (a : List Ptr) :
    set_difference (compare_paths mem) a a = [] := by
  simp only [set_difference, List.filter_eq_nil_iff]
  intro x hx
  have := (set_contains_paths mem a x).mpr (List.mem_map_of_mem mem hx)
  simp [this]

theorem filter_bytes_nodup (mem : Ptr → String) (a : List Ptr) (f : Ptr → Bool)
    (h : (a.map mem).Nodup) : ((a.filter f).map mem).Nodup :=
  List.Nodup.sublist ((List.filter_sublist a).map mem) h

theorem set_union_nodup (mem : Ptr → String) (a b : List Ptr) (ha : (a.map mem).Nodup)
    (hb : (b.map mem).Nodup) : ((set_union (compare_paths mem) a b).map mem).Nodup := by
  simp only [set_union, List.map_append]
  refine List.Nodup.append ha (filter_bytes_nodup mem b _ hb) ?_
  intro s hs1 hs2
  obtain ⟨y, hy, rfl⟩ := List.mem_map.mp hs2
  have h2 := (List.mem_filter.mp hy).2
  rw [(set_contains_paths mem a y).mpr hs1] at h2
  simp at h2

/-- The bytes of the paths that `eval_query` returns are the set that the tree
denotes, on every index. -/
theorem eval_query_denotes (mem : Ptr → String) (index : index_t) (t : querynode)
    (s : String) : s ∈ (eval_query mem index t).map mem ↔ denotes mem index t s = true := by
  induction t with
  | WORD w =>
    simp only [eval_query, denotes]
    cases map_get compare_strings index.map w with
    | none => simp
    | some p => simp [set_copy]
  | OR l r ihl ihr =>
    simp only [eval_query, denotes, set_union_bytes, ihl, ihr, Bool.or_eq_true]
  | AND l r ihl ihr =>
    simp only [eval_query, denotes, set_intersection_bytes, ihl, ihr, Bool.and_eq_true]
  | ANDNOT l r ihl ihr =>
    simp only [eval_query, denotes, set_difference_bytes, ihl, ihr, Bool.and_eq_true,
      Bool.not_eq_true', Bool.not_eq_true]

/-- No two paths that `eval_query` returns have the same bytes, if that holds
of the `paths` set of every posting. -/
theorem eval_query_nodup (mem : Ptr → String) (index : index_t)
    (h : ∀ w p, map_get compare_strings index.map w = some p → (p.paths.map mem).Nodup)
    (t : querynode) : ((eval_query mem index t).map mem).Nodup := by
  induction t with
  | WORD w =>
    simp only [eval_query]
    cases hg : map_get compare_strings index.map w with
    | none => simp
    | some p => exact h w p hg
  | OR l r ihl ihr => exact set_union_nodup mem _ _ ihl ihr
  | AND l r ihl _ => exact filter_bytes_nodup mem _ _ ihl
  | ANDNOT l r ihl _ => exact filter_bytes_nodup mem _ _ ihl

/-! ## Sorting -/

theorem list_insert_perm {α : Type} (cmp : α → α → Int) (x : α) (l : List α) :
    (list_insert cmp x l).Perm (x :: l) := by
  induction l with
  | nil => exact List.Perm.refl _
  | cons y ys ih =>
    simp only [list_insert]
    split
    · exact List.Perm.refl _
    · exact (List.Perm.cons y ih).trans (List.Perm.swap x y ys)

theorem list_sort_perm {α : Type} (cmp : α → α → Int) (l : List α) :
    (list_sort cmp l).Perm l := by
  induction l with
  | nil => exact List.Perm.refl _
  | cons x xs ih =>
    simp only [list_sort]
    exact (list_insert_perm cmp x _).trans (List.Perm.cons x ih)

/-! ## The paths sets of a reachable index -/

theorem set_add_nodup (mem : Ptr → String) (s : List Ptr) (x : Ptr)
    (h : (s.map mem).Nodup) : ((set_add (compare_paths mem) s x).map mem).Nodup := by
  unfold set_add
  split
  · exact h
  · rename_i hc
    rw [List.map_append]
    refine List.Nodup.append h (List.nodup_singleton _) ?_
    intro a ha hb
    simp only [List.map_cons, List.map_nil, List.mem_singleton] at hb
    rw [hb] at ha
    exact hc ((set_contains_paths mem s x).mpr ha)

theorem pathsDistinct_step (mem : Ptr → String) (index : index_t) (path : Ptr)
    (word : String) (h : PathsDistinct mem index) :
    PathsDistinct mem (index_addpath_step mem index path word) := by
  rw [index_addpath_step_eq]
  intro e he
  rcases mem_map_put _ _ _ e he with h3 | h3
  · exact h e h3
  · rw [h3]
    cases hg : map_get compare_strings index.map word with
    | none =>
      exact set_add_nodup mem create_posting.paths path List.nodup_nil
    | some p =>
      obtain ⟨k1, hk1⟩ := map_get_mem _ _ _ hg
      exact set_add_nodup mem p.paths path (h _ hk1)

theorem pathsDistinct_loop (mem : Ptr → String) (path : Ptr) (words : List String) :
    ∀ index : index_t, PathsDistinct mem index →
      PathsDistinct mem (index_addpath_loop mem index path words) := by
  induction words with
  | nil => intro index h; exact h
  | cons w ws ih =>
    intro index h
    simp only [index_addpath_loop]
    exact ih _ (pathsDistinct_step mem index path w h)

theorem pathsDistinct_addpaths (mem : Ptr → String) (calls : List (Ptr × List String)) :
    ∀ index : index_t, PathsDistinct mem index →
      PathsDistinct mem (index_addpaths mem index calls) := by
  induction calls with
  | nil => intro index h; exact h
  | cons c cs ih =>
    intro index h
    obtain ⟨p, ws⟩ := c
    simp only [index_addpaths]
    exact ih _ (pathsDistinct_loop mem p ws _ h)

theorem pathsDistinct_reachable (mem : Ptr → String) (calls : List (Ptr × List String)) :
    PathsDistinct mem (index_addpaths mem index_create calls) :=
  pathsDistinct_addpaths mem calls _ (by intro e he; simp [index_create] at he)

/-- In a reachable index a posting whose `tf` map has a key has at least one
path and at most as many paths as the index has documents. -/
theorem posting_size_reachable (mem : Ptr → String) (calls : List (Ptr × List String))
    (w : String) (p : posting_t) (d : Ptr) (v : Int)
    (hg : map_get compare_strings (index_addpaths mem index_create calls).map w = some p)
    (hk : map_get compare_pointers p.tf d = some v) :
    1 ≤ set_size p.paths ∧
      set_size p.paths ≤ list_size (index_addpaths mem index_create calls).paths := by
  obtain ⟨k1, hk1⟩ := map_get_mem _ _ _ hg
  obtain ⟨q1, _, q3, _⟩ := (indexOK_reachable mem calls).1 _ hk1
  have hnd := pathsDistinct_reachable mem calls _ hk1
  have hkey := map_get_key compare_pointers_iff _ _ _ hk
  have hin : mem d ∈ p.paths.map mem := (q3 (mem d)).mp (List.mem_map_of_mem mem hkey)
  unfold set_size list_size
  constructor
  · cases hp : p.paths with
    | nil => rw [hp] at hin; simp at hin
    | cons x xs => simp
  · have hsub : p.paths.Subperm (index_addpaths mem index_create calls).paths :=
      List.Nodup.subperm (List.Nodup.of_map mem hnd) (fun x hx => q1 x hx)
    exact_mod_cast hsub.length_le

/-- In a reachable index where no word is counted 2^31 times or more for one
path pointer, every `tf` value is at least 1. -/
theorem tf_positive_reachable (mem : Ptr → String) (calls : List (Ptr × List String))
    (hb : ∀ path word, occurrences calls path word < 2147483648)
    (w : String) (p : posting_t) (d : Ptr) (v : Int)
    (hg : map_get compare_strings (index_addpaths mem index_create calls).map w = some p)
    (hk : map_get compare_pointers p.tf d = some v) : 1 ≤ v := by
  have h3 := tf_lookup_reachable mem calls w d
  unfold tf_lookup at h3
  rw [hg, Option.some_bind, hk] at h3
  unfold tf_of_count at h3
  have hb2 := hb d w
  split at h3
  · exact Option.noConfusion h3
  · simp only [Option.some.injEq] at h3
    rw [int_wrap_small _ (by omega) (by omega)] at h3
    omega

/-- A word that was never passed to `index_addpath` has no posting. -/
theorem lookup_unindexed (mem : Ptr → String) (w : String)
    (calls : List (Ptr × List String)) (h : ∀ c ∈ calls, w ∉ c.2) :
    ∀ index : index_t, map_get compare_strings index.map w = none →
      map_get compare_strings (index_addpaths mem index calls).map w = none := by
  induction calls with
  | nil => intro index hi; exact hi
  | cons c cs ih =>
    intro index hi
    obtain ⟨p, ws⟩ := c
    simp only [index_addpaths]
    apply ih (fun c hc => h c (List.mem_cons_of_mem _ hc))
    unfold index_addpath
    rw [lookup_loop, List.count_eq_zero_of_not_mem (h (p, ws) (List.mem_cons_self _ _))]
    exact hi

/-! ## A word repeated in one document -/

theorem int_wrap_idem (c : Int) : int_wrap (int_wrap c) = int_wrap c := by
  unfold int_wrap
  omega

theorem int_wrap_add (a : Int) (n : Nat) : int_wrap (int_wrap a + n) = int_wrap (a + n) := by
  unfold int_wrap
  omega

/-- The loop of `index_addpath` over `n` copies of the only word of the index,
for its only path: the count is incremented `n` times. -/
theorem loop_replicate (mem : Ptr → String) (w : String) (d : Ptr) (docs : List Ptr)
    (n : Nat) : ∀ v : Int,
      index_addpath_loop mem ⟨[(w, ⟨[(d, int_wrap v)], [d]⟩)], docs⟩ d (List.replicate n w)
        = ⟨[(w, ⟨[(d, int_wrap (v + n))], [d]⟩)], docs⟩ := by
  induction n with
  | zero => intro v; simp [index_addpath_loop]
  | succ n ih =>
    intro v
    have hs : index_addpath_step mem ⟨[(w, ⟨[(d, int_wrap v)], [d]⟩)], docs⟩ d w
        = ⟨[(w, ⟨[(d, int_wrap (v + 1))], [d]⟩)], docs⟩ := by
      have e := int_wrap_add v 1
      simp only [Nat.cast_one] at e
      simp [index_addpath_step, map_get, map_put, compare_strings, compare_pointers,
        set_add, set_contains, compare_paths, e]
    simp only [List.replicate_succ, index_addpath_loop, hs]
    rw [ih (v + 1)]
    have : v + 1 + (n : Int) = v + ((n + 1 : Nat) : Int) := by push_cast; ring
    rw [this]

/-- Two `index_addpath` calls on the empty index for the same path pointer,
with `n + 1` and `m` copies of one word: the index afterwards. -/
theorem addpaths_two_replicate (mem : Ptr → String) (w : String) (d : Ptr) (n m : Nat) :
    index_addpaths mem index_create [(d, List.replicate (n + 1) w), (d, List.replicate m w)]
      = ⟨[(w, ⟨[(d, int_wrap (1 + n + m))], [d]⟩)], [d, d]⟩ := by
  have h1 : index_addpath_step mem ⟨[], [d]⟩ d w = ⟨[(w, ⟨[(d, int_wrap 1)], [d]⟩)], [d]⟩ := by
    simp [index_addpath_step, map_get, map_put, create_posting, set_add, set_contains,
      int_wrap]
  simp only [index_addpaths, index_addpath, index_create, List.nil_append,
    List.replicate_succ, index_addpath_loop, h1]
  rw [loop_replicate]
  have h2 := loop_replicate mem w d ([d] ++ [d]) m (1 + n)
  exact h2

/-! ## The query function -/

/-- On a query that parses, `index_query` returns the ordered results of the
evaluated tree and leaves `errmsg` alone. -/
theorem index_query_ok {S : Type} [Zero S] [Add S] [Mul S] [Div S] [LT S]
    [∀ a b : S, Decidable (a < b)] (log : S → S) (to_double : Int → S)
    (mem : Ptr → String) (index : index_t) (q : List String) (t : querynode)
    (errmsg : Option String) (h : parse_query q = some (.ok t)) :
    index_query log to_double mem index q errmsg
      = some (some (order_results log to_double index q (eval_query mem index t)), errmsg) := by
  simp only [index_query, h]

theorem sum_scores_foldl {S : Type} [Zero S] [Add S] [Mul S] [Div S] (log : S → S)
    (to_double : Int → S) (index : index_t) (path : Ptr) (q : List String) :
    ∀ score : S, sum_scores log to_double index path score q
      = q.foldl (fun acc w => acc + calc_score log to_double index path w) score := by
  induction q with
  | nil => intro score; rfl
  | cons w ws ih => intro score; simp only [sum_scores, List.foldl_cons, ih]

/-! ## The order of the results -/

theorem index_addpaths_append (mem : Ptr → String) (a b : List (Ptr × List String)) :
    ∀ index : index_t,
      index_addpaths mem index (a ++ b) = index_addpaths mem (index_addpaths mem index a) b := by
  induction a with
  | nil => intro index; rfl
  | cons c cs ih =>
    intro index
    obtain ⟨p, ws⟩ := c
    simp only [List.cons_append, index_addpaths]
    exact ih _

/-- One `index_addpath` call on the empty index with `n + 1` copies of one word:
the index afterwards. -/
theorem addpaths_one_replicate (mem : Ptr → String) (w : String) (d : Ptr) (n : Nat) :
    index_addpaths mem index_create [(d, List.replicate (n + 1) w)]
      = ⟨[(w, ⟨[(d, int_wrap (1 + n))], [d]⟩)], [d]⟩ := by
  have h1 : index_addpath_step mem ⟨[], [d]⟩ d w = ⟨[(w, ⟨[(d, int_wrap 1)], [d]⟩)], [d]⟩ := by
    simp [index_addpath_step, map_get, map_put, create_posting, set_add, set_contains,
      int_wrap]
  simp only [index_addpaths, index_addpath, index_create, List.nil_append,
    List.replicate_succ, index_addpath_loop, h1]
  rw [loop_replicate]

theorem compare_results_le_iff {S : Type} [LT S] [∀ a b : S, Decidable (a < b)]
    (a b : query_result_t S) : compare_results a b ≤ 0 ↔ ¬ a.score < b.score := by
  unfold compare_results
  by_cases h1 : a.score < b.score
  · simp only [h1, if_true, not_true_eq_false, iff_false]
    omega
  · simp only [h1, if_false, not_false_eq_true, iff_true]
    split <;> omega

theorem list_insert_sorted_on {α : Type} (cmp : α → α → Int) (P : α → Prop)
    (htot : ∀ a b, P a → P b → ¬ cmp a b ≤ 0 → cmp b a ≤ 0)
    (htrans : ∀ a b c, P a → P b → P c → cmp a b ≤ 0 → cmp b c ≤ 0 → cmp a c ≤ 0)
    (x : α) (l : List α) (hx : P x) (hl : ∀ y ∈ l, P y)
    (h : l.Pairwise (fun a b => cmp a b ≤ 0)) :
    (list_insert cmp x l).Pairwise (fun a b => cmp a b ≤ 0) := by
  induction l with
  | nil => simp [list_insert]
  | cons y ys ih =>
    simp only [list_insert]
    rw [List.pairwise_cons] at h
    have hy : P y := hl y (List.mem_cons_self _ _)
    have hys : ∀ z ∈ ys, P z := fun z hz => hl z (List.mem_cons_of_mem _ hz)
    split
    · rename_i hxy
      refine List.Pairwise.cons ?_ (List.Pairwise.cons h.1 h.2)
      intro z hz
      rcases List.mem_cons.mp hz with hz | hz
      · rw [hz]; exact hxy
      · exact htrans _ _ _ hx hy (hys z hz) hxy (h.1 z hz)
    · rename_i hxy
      refine List.Pairwise.cons ?_ (ih hys h.2)
      intro z hz
      rcases List.mem_cons.mp ((list_insert_perm cmp x ys).subset hz) with hz | hz
      · rw [hz]; exact htot _ _ hx hy hxy
      · exact h.1 z hz

theorem list_sort_sorted_on {α : Type} (cmp : α → α → Int) (P : α → Prop)
    (htot : ∀ a b, P a → P b → ¬ cmp a b ≤ 0 → cmp b a ≤ 0)
    (htrans : ∀ a b c, P a → P b → P c → cmp a b ≤ 0 → cmp b c ≤ 0 → cmp a c ≤ 0)
    (l : List α) (hl : ∀ y ∈ l, P y) :
    (list_sort cmp l).Pairwise (fun a b => cmp a b ≤ 0) := by
  induction l with
  | nil => simp [list_sort]
  | cons x xs ih =>
    simp only [list_sort]
    have hxs : ∀ y ∈ xs, P y := fun y hy => hl y (List.mem_cons_of_mem _ hy)
    exact list_insert_sorted_on cmp P htot htrans x _ (hl x (List.mem_cons_self _ _))
      (fun y hy => hxs y ((list_sort_perm cmp xs).subset hy)) (ih hxs)

/-- In a reachable index where no word is counted 2^31 times or more for one
path pointer, the sum of the scores of the tokens of a query is not negative,
in every arithmetic in which the values that `calc_score` computes are not. -/
theorem sum_scores_nonneg {S : Type} [Zero S] [Add S] [Mul S] [Div S] [LE S] (log : S → S)
    (to_double : Int → S) (h0 : (0 : S) ≤ 0) (hadd : ∀ a b : S, 0 ≤ a → 0 ≤ b → 0 ≤ a + b)
    (hmul : ∀ a b : S, 0 ≤ a → 0 ≤ b → 0 ≤ a * b)
    (hlog : ∀ i : Int, 1 ≤ i → 0 ≤ log (to_double i))
    (hidf : ∀ n d : Int, 1 ≤ d → d ≤ n → 0 ≤ log (to_double n / to_double d))
    (mem : Ptr → String) (calls : List (Ptr × List String))
    (hb : ∀ path word, occurrences calls path word < 2147483648) (d : Ptr) :
    ∀ (ws : List String) (score : S), 0 ≤ score →
      0 ≤ sum_scores log to_double (index_addpaths mem index_create calls) d score ws := by
  have hcalc : ∀ w, 0 ≤ calc_score log to_double (index_addpaths mem index_create calls)
      d w := by
    intro w
    unfold calc_score
    cases hg : map_get compare_strings (index_addpaths mem index_create calls).map w with
    | none => exact h0
    | some p =>
      simp only
      cases hk : map_get compare_pointers p.tf d with
      | none => exact h0
      | some v =>
        simp only
        have hs := posting_size_reachable mem calls w p d v hg hk
        exact hmul _ _ (hlog v (tf_positive_reachable mem calls hb w p d v hg hk))
          (hidf _ _ hs.1 hs.2)
  intro ws
  induction ws with
  | nil => intro score hs; exact hs
  | cons w ws ih =>
    intro score hs
    simp only [sum_scores]
    exact ih _ (hadd _ _ hs (hcalc w))

/-! ## The arithmetic with NaN -/

theorem nan_real_lt_num (x y : ℝ) : (nan_real.num x < nan_real.num y) ↔ x < y := Iff.rfl

theorem nan_real_le_num (x y : ℝ) : (nan_real.num x ≤ nan_real.num y) ↔ x ≤ y := Iff.rfl

theorem nan_real_zero : (0 : nan_real) = nan_real.num 0 := rfl

theorem nan_real_nonneg (a : nan_real) (h : (0 : nan_real) ≤ a) : ∃ x : ℝ, a = .num x ∧ 0 ≤ x := by
  cases a with
  | nan => exact absurd h (fun h => h)
  | num x => exact ⟨x, rfl, h⟩

theorem nan_real_add_num (x y : ℝ) : nan_real.num x + nan_real.num y = .num (x + y) := rfl

theorem nan_real_mul_num (x y : ℝ) : nan_real.num x * nan_real.num y = .num (x * y) := rfl

theorem nan_real_nan_mul (a : nan_real) : nan_real.nan * a = .nan := rfl

theorem nan_real_div_num (x y : ℝ) (h : y ≠ 0) :
    nan_real.num x / nan_real.num y = .num (x / y) := by
  show (if y = 0 then nan_real.nan else nan_real.num (x / y)) = _
  simp [h]

theorem nan_log_num (x : ℝ) (h : 0 < x) : nan_log (.num x) = .num (Real.log x) := by
  simp [nan_log, h]

theorem nan_log_neg (x : ℝ) (h : ¬ 0 < x) : nan_log (.num x) = .nan := by
  simp [nan_log, h]

/-- The arithmetic with NaN has the properties that the order of the results
rests on. -/
theorem nan_real_arithmetic :
    ((0 : nan_real) ≤ 0) ∧
    (∀ a b : nan_real, 0 ≤ a → 0 ≤ b → 0 ≤ a + b) ∧
    (∀ a b : nan_real, 0 ≤ a → 0 ≤ b → 0 ≤ a * b) ∧
    (∀ i : Int, 1 ≤ i → 0 ≤ nan_log (nan_of_int i)) ∧
    (∀ n d : Int, 1 ≤ d → d ≤ n → 0 ≤ nan_log (nan_of_int n / nan_of_int d)) ∧
    (∀ a b : nan_real, 0 ≤ a → 0 ≤ b → a < b → ¬ b < a) ∧
    (∀ a b c : nan_real, 0 ≤ a → 0 ≤ b → 0 ≤ c → ¬ a < b → ¬ b < c → ¬ a < c) ∧
    (∀ a b : nan_real, 0 ≤ a → 0 ≤ b → ¬ a < b → b ≤ a) := by
  refine ⟨?_, ?_, ?_, ?_, ?_, ?_, ?_, ?_⟩
  · exact (nan_real_le_num 0 0).mpr le_rfl
  · intro a b ha hb
    obtain ⟨x, rfl, hx⟩ := nan_real_nonneg a ha
    obtain ⟨y, rfl, hy⟩ := nan_real_nonneg b hb
    exact (nan_real_le_num _ _).mpr (add_nonneg hx hy)
  · intro a b ha hb
    obtain ⟨x, rfl, hx⟩ := nan_real_nonneg a ha
    obtain ⟨y, rfl, hy⟩ := nan_real_nonneg b hb
    exact (nan_real_le_num _ _).mpr (mul_nonneg hx hy)
  · intro i hi
    have h1 : (1 : ℝ) ≤ (i : ℝ) := by exact_mod_cast hi
    unfold nan_of_int
    rw [nan_log_num _ (by linarith)]
    exact (nan_real_le_num _ _).mpr (Real.log_nonneg h1)
  · intro n d hd hn
    have hd2 : (0 : ℝ) < (d : ℝ) := by exact_mod_cast (by omega : (0 : Int) < d)
    have h1 : (1 : ℝ) ≤ (n : ℝ) / (d : ℝ) := by
      rw [le_div_iff₀ hd2, one_mul]
      exact_mod_cast hn
    unfold nan_of_int
    rw [nan_real_div_num _ _ (ne_of_gt hd2), nan_log_num _ (by linarith)]
    exact (nan_real_le_num _ _).mpr (Real.log_nonneg h1)
  · intro a b ha hb hab
    obtain ⟨x, rfl, _⟩ := nan_real_nonneg a ha
    obtain ⟨y, rfl, _⟩ := nan_real_nonneg b hb
    rw [nan_real_lt_num] at hab ⊢
    exact not_lt.mpr (le_of_lt hab)
  · intro a b c ha hb hc hab hbc
    obtain ⟨x, rfl, _⟩ := nan_real_nonneg a ha
    obtain ⟨y, rfl, _⟩ := nan_real_nonneg b hb
    obtain ⟨z, rfl, _⟩ := nan_real_nonneg c hc
    rw [nan_real_lt_num] at hab hbc ⊢
    exact not_lt.mpr (le_trans (not_lt.mp hbc) (not_lt.mp hab))
  · intro a b ha hb hab
    obtain ⟨x, rfl, _⟩ := nan_real_nonneg a ha
    obtain ⟨y, rfl, _⟩ := nan_real_nonneg b hb
    rw [nan_real_lt_num] at hab
    exact (nan_real_le_num _ _).mpr (not_lt.mp hab)

/-! ## The claims -/

/-- C1 (as stated, refuted): the tokens `x OR y AND z` do not parse as
`Or(x, And(y, z))`, and on the corpus `a = {x}`, `b = {y}`, `c = {z}` the query
does not return `{a}`: it parses as `And(Or(x, y), z)` and returns the empty
set. -/
theorem C1_counterexample :
    parse_query ["x", "OR", "y", "AND", "z"]
        ≠ some (.ok (.OR (.WORD "x") (.AND (.WORD "y") (.WORD "z")))) ∧
      parse_query ["x", "OR", "y", "AND", "z"]
        = some (.ok (.AND (.OR (.WORD "x") (.WORD "y")) (.WORD "z"))) ∧
      (parse_query ["x", "OR", "y", "AND", "z"]).map (Except.map (eval_query memS4 corpusS4))
        = some (.ok []) := by
  decide

/-- C1 (amended): for all non-reserved words `x`, `y`, `z` the token sequence
`x OR y AND z` parses, and the tree is `And(Or(x, y), z)`, as `OR` binds
tighter than `AND`; on the corpus `a = {x}`, `b = {y}`, `c = {z}` of scenario S4
that tree denotes the empty set. -/
theorem C1_or_binds_tighter (x y z : String) (hx : x ∉ reservedTokens)
    (hy : y ∉ reservedTokens) (hz : z ∉ reservedTokens) :
    parse_query [x, "OR", y, "AND", z]
        = some (.ok (.AND (.OR (.WORD x) (.WORD y)) (.WORD z))) ∧
      eval_query memS4 corpusS4 (.AND (.OR (.WORD "x") (.WORD "y")) (.WORD "z")) = [] := by
  simp only [reservedTokens, List.mem_cons, List.mem_singleton, not_or, List.not_mem_nil,
    or_false] at hx hy hz
  refine ⟨?_, by decide⟩
  simp [parse_query, parse_andnotterm, parse_andterm, parse_orterm, parse_term, next_token,
    hx, hy, hz]

/-- C1 (amended), at the words `x`, `y`, `z` of scenario S4. -/
theorem C1_or_binds_tighter_witness :
    "x" ∉ reservedTokens ∧ "y" ∉ reservedTokens ∧ "z" ∉ reservedTokens ∧
      parse_query ["x", "OR", "y", "AND", "z"]
        = some (.ok (.AND (.OR (.WORD "x") (.WORD "y")) (.WORD "z"))) :=
  ⟨by decide, by decide, by decide,
    (C1_or_binds_tighter "x" "y" "z" (by decide) (by decide) (by decide)).1⟩

/-- C2 (as stated, refuted): the reserved tokens `AND`, `OR`, `ANDNOT` and `)`
are accepted as a `WORD` when they stand in term position. -/
theorem C2_counterexample :
    parse_query ["AND"] = some (.ok (.WORD "AND")) ∧
      parse_query ["OR"] = some (.ok (.WORD "OR")) ∧
      parse_query ["ANDNOT"] = some (.ok (.WORD "ANDNOT")) ∧
      parse_query [")"] = some (.ok (.WORD ")")) ∧
      parse_query ["x", "AND", "OR"] = some (.ok (.AND (.WORD "x") (.WORD "OR"))) ∧
      "AND" ∈ leaves (.WORD "AND") ∧ "AND" ∈ reservedTokens := by
  decide

/-- C2 (amended): for every token sequence on which `parse_query` succeeds, no
`WORD` leaf of the returned tree carries the token `(`.  (The four other
reserved tokens are taken as words in term position.) -/
theorem C2_leaf_not_open_paren (q : List String) (t : querynode)
    (h : parse_query q = some (.ok t)) : ∀ w ∈ leaves t, w ≠ "(" := by
  obtain ⟨t0, rest, s, _, hp, _⟩ := parse_query_ok h
  exact (parse_leaf _).2.2.2 _ _ _ hp

/-- C2 (amended), at the query `( x OR y )` and its leaf `x`. -/
theorem C2_leaf_not_open_paren_witness :
    parse_query ["(", "x", "OR", "y", ")"] = some (.ok (.OR (.WORD "x") (.WORD "y"))) ∧
      "x" ≠ "(" :=
  ⟨by decide,
    C2_leaf_not_open_paren ["(", "x", "OR", "y", ")"] (.OR (.WORD "x") (.WORD "y"))
      (by decide) "x" (by decide)⟩

/-- C3 (as stated, refuted): after two `index_addpath` calls that repeat the
path pointer 1, each with the word `w` 2^30 times, the `tf` value of `w` for that
path is the `int` -2^31, which is not positive. -/
theorem C3_counterexample :
    tf_lookup (index_addpaths memS4 index_create
        [(1, List.replicate 1073741824 "w"), (1, List.replicate 1073741824 "w")]) "w" 1
      = some (-2147483648) := by
  rw [tf_lookup_reachable, occurrences_two_replicate]
  unfold tf_of_count int_wrap
  norm_num

/-- C3 (amended), invariant P1: in every index state reachable from
`index_create` by any sequence of `index_addpath` calls, calls that repeat a
path included, for every posting the keys of its `tf` map and its `paths` set
are the same set of byte strings; and every `tf` value is positive provided no
word is counted 2^31 times or more for one path pointer (the count is a 32-bit
`int`). -/
theorem C3_posting_invariant (mem : Ptr → String) (calls : List (Ptr × List String)) :
    (∀ e ∈ (index_addpaths mem index_create calls).map,
        ∀ s, s ∈ (e.2.tf.map Prod.fst).map mem ↔ s ∈ e.2.paths.map mem) ∧
      ((∀ path word, occurrences calls path word < 2147483648) →
        ∀ e ∈ (index_addpaths mem index_create calls).map, ∀ kv ∈ e.2.tf, 0 < kv.2) := by
  have hok := indexOK_reachable mem calls
  refine ⟨fun e he => (hok.1 e he).2.2.1, ?_⟩
  intro hb e he kv hkv
  obtain ⟨t, post⟩ := e
  obtain ⟨k, v⟩ := kv
  have h1 := map_get_of_mem compare_strings_iff _ t post hok.2 he
  have h2 := map_get_of_mem compare_pointers_iff _ k v (hok.1 _ he).2.2.2 hkv
  have h3 := tf_lookup_reachable mem calls t k
  unfold tf_lookup at h3
  simp only at h2
  rw [h1, Option.some_bind, h2] at h3
  unfold tf_of_count at h3
  have hb2 := hb k t
  split at h3
  · exact Option.noConfusion h3
  · rename_i hne
    simp only [Option.some.injEq] at h3
    rw [int_wrap_small _ (by omega) (by omega)] at h3
    simp only
    omega

/-- C3 (amended), at two calls that repeat the path pointer 1: the posting of
`x` has the count 3. -/
theorem C3_posting_invariant_witness :
    (("x", ⟨[(1, 3)], [1]⟩) : String × posting_t)
        ∈ (index_addpaths memS4 index_create [(1, ["x", "x"]), (1, ["x", "y"])]).map ∧
      (0 : Int) < 3 :=
  ⟨by decide,
    (C3_posting_invariant memS4 [(1, ["x", "x"]), (1, ["x", "y"])]).2
      (fun path word => lt_of_le_of_lt (occurrences_le _ path word) (by decide))
      ("x", ⟨[(1, 3)], [1]⟩) (by decide) (1, 3) (by decide)⟩

/-- C4, invariant I1: in every index state reachable from `index_create` by any
sequence of `index_addpath` calls, every path contained in the `paths` set of a
posting also occurs in the `paths` list of the index. -/
theorem C4_posting_paths_indexed (mem : Ptr → String) (calls : List (Ptr × List String)) :
    ∀ e ∈ (index_addpaths mem index_create calls).map,
      ∀ x ∈ e.2.paths, x ∈ (index_addpaths mem index_create calls).paths :=
  fun e he => ((indexOK_reachable mem calls).1 e he).1

/-- C4, at the corpus of scenario S4 and the posting of `y`. -/
theorem C4_posting_paths_indexed_witness :
    (2 : Ptr) ∈ (index_addpaths memS4 index_create [(1, ["x"]), (2, ["y"]), (3, ["z"])]).paths :=
  C4_posting_paths_indexed memS4 [(1, ["x"]), (2, ["y"]), (3, ["z"])]
    ("y", ⟨[(2, 1)], [2]⟩) (by decide) 2 (by decide)

/-- C5 (as stated, refuted): on the empty index, for the new path pointer 1 and
the token list holding `w` 2^31 times, `tf[1]` of `w` is the `int` -2^31 and
not the number of occurrences. -/
theorem C5_counterexample :
    (List.replicate 2147483648 "w").count "w" = 2147483648 ∧
      tf_lookup (index_addpath memS4 (index_addpaths memS4 index_create []) 1
        (List.replicate 2147483648 "w")) "w" 1 = some (-2147483648) := by
  refine ⟨List.count_replicate_self _ _, ?_⟩
  rw [tf_lookup_replicate]
  unfold tf_of_count int_wrap
  norm_num

/-- C5 (amended): for every reachable index, every path `p` whose bytes are
those of no document added before, and every token list `ts`, after
`index_addpath(index, p, ts)`: for every term occurring `k` times in `ts` with
`1 ≤ k < 2^31` the posting of the term exists, contains `p` in its `paths` set
and has `tf[p] = k`; for every term not occurring in `ts`, `p` is in no posting
of that term; and the `tf` entries of all other paths are unchanged. -/
theorem C5_addpath_new_path (mem : Ptr → String) (calls : List (Ptr × List String))
    (p : Ptr) (ts : List String)
    (hnew : ∀ q ∈ (index_addpaths mem index_create calls).paths, mem q ≠ mem p) :
    (∀ t, 1 ≤ ts.count t → ts.count t < 2147483648 →
        ∃ post, map_get compare_strings
            (index_addpath mem (index_addpaths mem index_create calls) p ts).map t = some post ∧
          p ∈ post.paths ∧ set_contains (compare_paths mem) post.paths p = true ∧
          map_get compare_pointers post.tf p = some (ts.count t : Int)) ∧
      (∀ t, t ∉ ts → ∀ post, map_get compare_strings
            (index_addpath mem (index_addpaths mem index_create calls) p ts).map t = some post →
          p ∉ post.paths ∧ set_contains (compare_paths mem) post.paths p = false) ∧
      (∀ t k, k ≠ p →
        tf_lookup (index_addpath mem (index_addpaths mem index_create calls) p ts) t k
          = tf_lookup (index_addpaths mem index_create calls) t k) := by
  have hok := indexOK_reachable mem calls
  have hok2 := indexOK_addpath mem _ p ts hok
  have hpaths := index_addpaths_paths mem calls index_create
  have hp : p ∉ (index_addpaths mem index_create calls).paths := fun h => hnew p h rfl
  have hcnt := tf_lookup_addpath_count mem p ts _ _ (tf_lookup_reachable mem calls)
  refine ⟨?_, ?_, ?_⟩
  · intro t h1 h2
    have h3 := hcnt t p
    have h0 : occurrences calls p t = 0 := by
      apply occurrences_eq_zero
      rw [hpaths] at hp
      simpa [index_create] using hp
    simp only [h0, if_true, Nat.zero_add, tf_of_count] at h3
    have hne : ¬ List.count t ts = 0 := by omega
    simp only [hne, if_false] at h3
    rw [int_wrap_small _ (by omega) (by omega)] at h3
    unfold tf_lookup at h3
    cases hg : map_get compare_strings
        (index_addpath mem (index_addpaths mem index_create calls) p ts).map t with
    | none => rw [hg] at h3; exact Option.noConfusion h3
    | some post =>
      rw [hg, Option.some_bind] at h3
      obtain ⟨k1, hk1⟩ := map_get_mem _ _ _ hg
      obtain ⟨q1, _, q3, _⟩ := hok2.1 _ hk1
      have hkey := map_get_key compare_pointers_iff _ _ _ h3
      have hin : mem p ∈ post.paths.map mem := (q3 (mem p)).mp (List.mem_map_of_mem mem hkey)
      refine ⟨post, rfl, ?_, (set_contains_paths mem _ _).mpr hin, h3⟩
      obtain ⟨x, hx, hxe⟩ := List.mem_map.mp hin
      have hx2 := q1 x hx
      rw [index_addpath_paths] at hx2
      rcases List.mem_append.mp hx2 with hx3 | hx3
      · exact absurd hxe (hnew x hx3)
      · simp only [List.mem_singleton] at hx3
        rw [← hx3]; exact hx
  · intro t ht post hg
    have hl := lookup_loop mem p t ts
      { index_addpaths mem index_create calls with
        paths := (index_addpaths mem index_create calls).paths ++ [p] }
    rw [List.count_eq_zero_of_not_mem ht] at hl
    simp only [Function.iterate_zero, id_eq] at hl
    have hg2 : map_get compare_strings (index_addpaths mem index_create calls).map t
        = some post := by
      rw [← hl]; exact hg
    obtain ⟨k1, hk1⟩ := map_get_mem _ _ _ hg2
    have q1 := (hok.1 _ hk1).1
    refine ⟨fun h => hp (q1 p h), ?_⟩
    cases hc : set_contains (compare_paths mem) post.paths p with
    | false => rfl
    | true =>
      obtain ⟨x, hx, hxe⟩ := List.mem_map.mp ((set_contains_paths mem _ _).mp hc)
      exact absurd hxe (hnew x (q1 x hx))
  · intro t k hk
    have hk2 : ¬ p = k := fun e => hk e.symm
    rw [hcnt t k, tf_lookup_reachable]
    simp only [hk2, if_false, Nat.add_zero]

/-- C5 (amended), at the index holding the document 1 with the word `x`, the
new path 2 and the tokens `y x y`: the count of `y` is 2. -/
theorem C5_addpath_new_path_witness :
    memS4 1 ≠ memS4 2 ∧
      ∃ post, map_get compare_strings
          (index_addpath memS4 (index_addpaths memS4 index_create [(1, ["x"])]) 2
            ["y", "x", "y"]).map "y" = some post ∧
        2 ∈ post.paths ∧ set_contains (compare_paths memS4) post.paths 2 = true ∧
        map_get compare_pointers post.tf 2 = some ((["y", "x", "y"].count "y" : Nat) : Int) :=
  ⟨by decide,
    (C5_addpath_new_path memS4 [(1, ["x"])] 2 ["y", "x", "y"] (by decide)).1 "y"
      (by decide) (by decide)⟩

/-- C6: for every index, path and token lists `ts`, `ts2` where `ts2` is a
permutation of `ts`, `index_addpath` with `ts` and with `ts2` produce the same
observable index state: the same `paths` list and, for every term, the same
posting (the same `paths` set and the same `tf` map). -/
theorem C6_token_order_irrelevant (mem : Ptr → String) (index : index_t) (path : Ptr)
    (ts ts2 : List String) (h : ts.Perm ts2) :
    (index_addpath mem index path ts).paths = (index_addpath mem index path ts2).paths ∧
      ∀ t, map_get compare_strings (index_addpath mem index path ts).map t
        = map_get compare_strings (index_addpath mem index path ts2).map t := by
  refine ⟨by rw [index_addpath_paths, index_addpath_paths], ?_⟩
  intro t
  unfold index_addpath
  rw [lookup_loop, lookup_loop, h.count_eq]

/-- C6, at the corpus of scenario S4, the path pointer 4 and the token lists
`x y x` and `x x y`. -/
theorem C6_token_order_irrelevant_witness :
    ["x", "y", "x"].Perm ["x", "x", "y"] ∧
      map_get compare_strings (index_addpath memS4 corpusS4 4 ["x", "y", "x"]).map "x"
        = map_get compare_strings (index_addpath memS4 corpusS4 4 ["x", "x", "y"]).map "x" :=
  ⟨List.Perm.cons "x" (List.Perm.swap "x" "y" []),
    (C6_token_order_irrelevant memS4 corpusS4 4 ["x", "y", "x"] ["x", "x", "y"]
      (List.Perm.cons "x" (List.Perm.swap "x" "y" []))).2 "x"⟩

/-- C7: the three operators are right-associative.  For all non-reserved words
`a`, `b`, `c` the sequence `a op b op c` parses as `Op(a, Op(b, c))` for `op`
any of `OR`, `AND`, `ANDNOT`, and `a ANDNOT b ANDNOT c` evaluates to
`eval(a) \ (eval(b) \ eval(c))` on every index. -/
theorem C7_right_associative (a b c : String) (ha : a ∉ reservedTokens)
    (hb : b ∉ reservedTokens) (hc : c ∉ reservedTokens) :
    parse_query [a, "OR", b, "OR", c]
        = some (.ok (.OR (.WORD a) (.OR (.WORD b) (.WORD c)))) ∧
      parse_query [a, "AND", b, "AND", c]
        = some (.ok (.AND (.WORD a) (.AND (.WORD b) (.WORD c)))) ∧
      parse_query [a, "ANDNOT", b, "ANDNOT", c]
        = some (.ok (.ANDNOT (.WORD a) (.ANDNOT (.WORD b) (.WORD c)))) ∧
      ∀ (mem : Ptr → String) (index : index_t),
        (parse_query [a, "ANDNOT", b, "ANDNOT", c]).map (Except.map (eval_query mem index))
          = some (.ok (set_difference (compare_paths mem) (eval_query mem index (.WORD a))
              (set_difference (compare_paths mem) (eval_query mem index (.WORD b))
                (eval_query mem index (.WORD c))))) := by
  simp only [reservedTokens, List.mem_cons, List.mem_singleton, not_or, List.not_mem_nil,
    or_false] at ha hb hc
  have e3 : parse_query [a, "ANDNOT", b, "ANDNOT", c]
      = some (.ok (.ANDNOT (.WORD a) (.ANDNOT (.WORD b) (.WORD c)))) := by
    simp [parse_query, parse_andnotterm, parse_andterm, parse_orterm, parse_term, next_token,
      ha, hb, hc]
  refine ⟨?_, ?_, e3, ?_⟩
  · simp [parse_query, parse_andnotterm, parse_andterm, parse_orterm, parse_term, next_token,
      ha, hb, hc]
  · simp [parse_query, parse_andnotterm, parse_andterm, parse_orterm, parse_term, next_token,
      ha, hb, hc]
  · intro mem index
    rw [e3]
    rfl

/-- C7, at the words `a`, `b`, `c`. -/
theorem C7_right_associative_witness :
    "a" ∉ reservedTokens ∧ "b" ∉ reservedTokens ∧ "c" ∉ reservedTokens ∧
      parse_query ["a", "ANDNOT", "b", "ANDNOT", "c"]
        = some (.ok (.ANDNOT (.WORD "a") (.ANDNOT (.WORD "b") (.WORD "c")))) :=
  ⟨by decide, by decide, by decide,
    (C7_right_associative "a" "b" "c" (by decide) (by decide) (by decide)).2.2.1⟩

/-- C8: round trip.  For every tree whose `WORD` leaves are non-reserved
lexemes, parsing its serialization with explicit parentheses around every
binary node succeeds and returns exactly that tree. -/
theorem C8_parse_serialize (t : querynode) (hw : ∀ w ∈ leaves t, w ∉ reservedTokens) :
    parse_query (serialize t) = some (.ok t) := by
  have h := parses_term_serialize t hw []
  obtain ⟨h0, tl, e⟩ := serialize_cons t
  rw [e] at h
  simp only [next_token, List.append_nil, List.cons_append] at h
  have h3 := parses_andnotterm_pass (parses_andterm_pass (parses_orterm_pass h (by
    cases tl <;> simp)) (by cases tl <;> simp)) (by cases tl <;> simp)
  obtain ⟨n, hn⟩ := h3
  have := parse_andnotterm_fuel h0 tl n _ hn
  rw [e, parse_query_cons, this]
  cases tl <;> simp

/-- C8, at the tree `AndNot(Or(x, y), And(y, z))`. -/
theorem C8_parse_serialize_witness :
    (∀ w ∈ leaves (.ANDNOT (.OR (.WORD "x") (.WORD "y")) (.AND (.WORD "y") (.WORD "z"))),
        w ∉ reservedTokens) ∧
      parse_query (serialize (.ANDNOT (.OR (.WORD "x") (.WORD "y")) (.AND (.WORD "y") (.WORD "z"))))
        = some (.ok (.ANDNOT (.OR (.WORD "x") (.WORD "y")) (.AND (.WORD "y") (.WORD "z")))) :=
  ⟨by decide, C8_parse_serialize _ (by decide)⟩

/-- C9: operator at end of input.  For every token sequence `q` on which
`parse_query` succeeds and every operator `X` among `OR`, `AND`, `ANDNOT`,
`parse_query` on `q` followed by the single token `X` fails with the diagnostic
`expected expression after X`. -/
theorem C9_operator_at_end (q : List String) (t : querynode) (X : String)
    (h : parse_query q = some (.ok t)) (hX : X ∈ ["OR", "AND", "ANDNOT"]) :
    parse_query (q ++ [X]) = some (.error ("expected expression after " ++ X)) := by
  obtain ⟨t0, rest, s, rfl, hp, hs⟩ := parse_query_ok h
  have hops : X ∈ ["ANDNOT", "AND", "OR"] := by
    simp only [List.mem_cons, List.mem_singleton, List.not_mem_nil, or_false] at hX ⊢
    tauto
  have h1 := ((parse_ext _).2.2.2 _ _ _ hp).2.2 hs X hops
  simp only at h1
  have h2 := parse_andnotterm_fuel t0 (rest ++ [X]) _ _ h1
  rw [List.cons_append, parse_query_cons, h2]

/-- C9, at the query `x` followed by `AND`. -/
theorem C9_operator_at_end_witness :
    parse_query ["x"] = some (.ok (.WORD "x")) ∧
      parse_query (["x"] ++ ["AND"]) = some (.error "expected expression after AND") :=
  ⟨by decide, C9_operator_at_end ["x"] (.WORD "x") "AND" (by decide) (by decide)⟩

/-- C10: unclosed parenthesis.  For every token sequence `q` on which
`parse_query` succeeds, `parse_query` on `(` followed by `q`, with no closing
`)`, fails with the diagnostic `missing closing parenthesis`. -/
theorem C10_unclosed_paren (q : List String) (t : querynode)
    (h : parse_query q = some (.ok t)) :
    parse_query ("(" :: q) = some (.error "missing closing parenthesis") := by
  obtain ⟨t0, rest, s, rfl, hp, hs⟩ := parse_query_ok h
  have e : 4 * ((t0 :: rest).length + 1) = 4 * (rest.length + 1) + 1 + 1 + 1 + 1 := by
    simp only [List.length_cons]; omega
  have h0 : parse_term (4 * (rest.length + 1) + 1) ⟨t0 :: rest, some "("⟩
      = some (.error "missing closing parenthesis") := by
    rw [parse_term_succ]
    unfold termLevel
    simp [hp, hs]
  have h1 : parse_orterm (4 * (rest.length + 1) + 1 + 1) ⟨t0 :: rest, some "("⟩
      = some (.error "missing closing parenthesis") := by
    rw [parse_orterm_succ]; unfold binLevel; simp only [h0]
  have h2 : parse_andterm (4 * (rest.length + 1) + 1 + 1 + 1) ⟨t0 :: rest, some "("⟩
      = some (.error "missing closing parenthesis") := by
    rw [parse_andterm_succ]; unfold binLevel; simp only [h1]
  have h3 : parse_andnotterm (4 * (rest.length + 1) + 1 + 1 + 1 + 1) ⟨t0 :: rest, some "("⟩
      = some (.error "missing closing parenthesis") := by
    rw [parse_andnotterm_succ]; unfold binLevel; simp only [h2]
  rw [parse_query_cons, e, h3]

/-- C10, at the query `( x`. -/
theorem C10_unclosed_paren_witness :
    parse_query ["x"] = some (.ok (.WORD "x")) ∧
      parse_query ["(", "x"] = some (.error "missing closing parenthesis") :=
  ⟨by decide, C10_unclosed_paren ["x"] (.WORD "x") (by decide)⟩

/-- C11: trailing tokens.  For every token sequence `q` on which `parse_query`
succeeds and every non-empty token sequence whose first token `X` is not one of
`OR`, `AND`, `ANDNOT`, `parse_query` on `q` followed by that sequence fails with
the diagnostic `extra terms at end of query`. -/
theorem C11_trailing_tokens (q : List String) (t : querynode) (X : String)
    (suf : List String) (h : parse_query q = some (.ok t))
    (hX : X ∉ ["OR", "AND", "ANDNOT"]) :
    parse_query (q ++ X :: suf) = some (.error "extra terms at end of query") := by
  obtain ⟨t0, rest, s, rfl, hp, hs⟩ := parse_query_ok h
  have hops : X ∉ ["ANDNOT", "AND", "OR"] := by
    simp only [List.mem_cons, List.mem_singleton, List.not_mem_nil, or_false] at hX ⊢
    tauto
  have h1 := ((parse_ext _).2.2.2 _ _ _ hp).2.1 hs X suf hops
  simp only at h1
  have h2 := parse_andnotterm_fuel t0 (rest ++ X :: suf) _ _ h1
  rw [List.cons_append, parse_query_cons, h2]
  simp

/-- C11, at the query `x` followed by `y`. -/
theorem C11_trailing_tokens_witness :
    parse_query ["x"] = some (.ok (.WORD "x")) ∧ "y" ∉ ["OR", "AND", "ANDNOT"] ∧
      parse_query (["x"] ++ "y" :: []) = some (.error "extra terms at end of query") :=
  ⟨by decide, by decide, C11_trailing_tokens ["x"] (.WORD "x") "y" [] (by decide) (by decide)⟩

/-- C12: for every index and every token sequence, either parsing fails, and
then `index_query` returns no result list together with the diagnostic of the
parser, which is non-empty and one of the strings of spec section 4.2; or
parsing succeeds, and then `index_query` returns a result list and writes no
diagnostic (the cell `errmsg` is left as the caller passed it).  For the empty
token sequence the diagnostic is `empty query string`. -/
theorem C12_query_diagnostics {S : Type} [Zero S] [Add S] [Mul S] [Div S] [LT S]
    [∀ a b : S, Decidable (a < b)] (log : S → S) (to_double : Int → S)
    (mem : Ptr → String) (index : index_t) (q : List String) (errmsg : Option String) :
    ((∃ e, parse_query q = some (.error e) ∧
          index_query log to_double mem index q errmsg = some (none, some e) ∧
          e ≠ "" ∧ e ∈ diagnostics) ∨
        (∃ t res, parse_query q = some (.ok t) ∧
          index_query log to_double mem index q errmsg = some (some res, errmsg))) ∧
      index_query log to_double mem index [] errmsg
        = some (none, some "empty query string") := by
  refine ⟨?_, rfl⟩
  obtain ⟨r, hr⟩ := parse_query_total q
  cases r with
  | error e =>
    left
    refine ⟨e, hr, by simp [index_query, hr], ?_⟩
    have hin : e ∈ diagnostics := by
      rcases parse_query_error hr with ⟨_, h1⟩ | h1 | h1
      · rw [h1]; decide
      · revert h1
        simp only [cursorDiagnostics, diagnostics, List.mem_cons, List.mem_singleton,
          List.not_mem_nil, or_false]
        tauto
      · rw [h1]; decide
    refine ⟨?_, hin⟩
    intro he
    rw [he] at hin
    exact absurd hin (by decide)
  | ok t =>
    right
    exact ⟨t, _, hr, index_query_ok log to_double mem index q t errmsg hr⟩

/-- C13: for every reachable index and every token sequence that parses to a
tree `t`, `index_query` returns a result list whose paths are the paths that
`eval_query` returns for `t`, in some order; as byte strings they are exactly
the members of the set that `t` denotes (a word: the paths of its posting, or
nothing if unknown, `Or`: union, `And`: intersection, `AndNot`: difference), and
no path appears in two records. -/
theorem C13_result_paths {S : Type} [Zero S] [Add S] [Mul S] [Div S] [LT S]
    [∀ a b : S, Decidable (a < b)] (log : S → S) (to_double : Int → S)
    (mem : Ptr → String) (calls : List (Ptr × List String)) (q : List String)
    (t : querynode) (errmsg : Option String) (h : parse_query q = some (.ok t)) :
    ∃ res, index_query log to_double mem (index_addpaths mem index_create calls) q errmsg
          = some (some res, errmsg) ∧
        (res.map (fun r => r.path)).Perm
          (eval_query mem (index_addpaths mem index_create calls) t) ∧
        (∀ s, s ∈ res.map (fun r => mem r.path) ↔
          denotes mem (index_addpaths mem index_create calls) t s = true) ∧
        (res.map (fun r => mem r.path)).Nodup := by
  refine ⟨_, index_query_ok log to_double mem _ q t errmsg h, ?_⟩
  have hp : (List.map (fun r : query_result_t S => r.path)
      (order_results log to_double (index_addpaths mem index_create calls) q
        (eval_query mem (index_addpaths mem index_create calls) t))).Perm
      (eval_query mem (index_addpaths mem index_create calls) t) := by
    unfold order_results
    refine ((list_sort_perm _ _).map _).trans ?_
    rw [List.map_map]
    have : ((fun r : query_result_t S => r.path) ∘ fun path =>
        newresult path (sum_scores log to_double (index_addpaths mem index_create calls)
          path 0 q)) = id := rfl
    rw [this, List.map_id]
  have hb : (List.map (fun r : query_result_t S => mem r.path)
      (order_results log to_double (index_addpaths mem index_create calls) q
        (eval_query mem (index_addpaths mem index_create calls) t))).Perm
      ((eval_query mem (index_addpaths mem index_create calls) t).map mem) := by
    have := hp.map mem
    rwa [List.map_map] at this
  refine ⟨hp, ?_, ?_⟩
  · intro s
    rw [hb.mem_iff]
    exact eval_query_denotes mem _ t s
  · rw [hb.nodup_iff]
    apply eval_query_nodup
    intro w p hg
    obtain ⟨k1, hk1⟩ := map_get_mem _ _ _ hg
    exact pathsDistinct_reachable mem calls _ hk1

/-- C13, at scenario S3 (`a = {cat, dog}`, `b = {cat}`, `c = {dog}` at the
addresses 1, 2, 3): `cat AND dog` gives `[a]`, `cat OR dog` gives `a`, `b`, `c`
in some order, `cat ANDNOT dog` gives `[b]`. -/
theorem C13_result_paths_witness :
    (∃ res, index_query Real.log (fun i : Int => (i : ℝ)) memS4 corpusS3
          ["cat", "AND", "dog"] none = some (some res, none) ∧
        res.map (fun r => r.path) = [1]) ∧
      (∃ res, index_query Real.log (fun i : Int => (i : ℝ)) memS4 corpusS3
          ["cat", "OR", "dog"] none = some (some res, none) ∧
        (res.map (fun r => r.path)).Perm [1, 2, 3]) ∧
      (∃ res, index_query Real.log (fun i : Int => (i : ℝ)) memS4 corpusS3
          ["cat", "ANDNOT", "dog"] none = some (some res, none) ∧
        res.map (fun r => r.path) = [2]) := by
  refine ⟨?_, ?_, ?_⟩
  · obtain ⟨res, h1, h2, _⟩ := C13_result_paths Real.log (fun i : Int => (i : ℝ)) memS4
      [(1, ["cat", "dog"]), (2, ["cat"]), (3, ["dog"])] ["cat", "AND", "dog"]
      (.AND (.WORD "cat") (.WORD "dog")) none (by decide)
    refine ⟨res, h1, ?_⟩
    have e : eval_query memS4 (index_addpaths memS4 index_create
        [(1, ["cat", "dog"]), (2, ["cat"]), (3, ["dog"])])
        (.AND (.WORD "cat") (.WORD "dog")) = [1] := by decide
    rw [e] at h2
    exact List.perm_singleton.mp h2
  · obtain ⟨res, h1, h2, _⟩ := C13_result_paths Real.log (fun i : Int => (i : ℝ)) memS4
      [(1, ["cat", "dog"]), (2, ["cat"]), (3, ["dog"])] ["cat", "OR", "dog"]
      (.OR (.WORD "cat") (.WORD "dog")) none (by decide)
    refine ⟨res, h1, ?_⟩
    have e : eval_query memS4 (index_addpaths memS4 index_create
        [(1, ["cat", "dog"]), (2, ["cat"]), (3, ["dog"])])
        (.OR (.WORD "cat") (.WORD "dog")) = [1, 2, 3] := by decide
    rw [e] at h2
    exact h2
  · obtain ⟨res, h1, h2, _⟩ := C13_result_paths Real.log (fun i : Int => (i : ℝ)) memS4
      [(1, ["cat", "dog"]), (2, ["cat"]), (3, ["dog"])] ["cat", "ANDNOT", "dog"]
      (.ANDNOT (.WORD "cat") (.WORD "dog")) none (by decide)
    refine ⟨res, h1, ?_⟩
    have e : eval_query memS4 (index_addpaths memS4 index_create
        [(1, ["cat", "dog"]), (2, ["cat"]), (3, ["dog"])])
        (.ANDNOT (.WORD "cat") (.WORD "dog")) = [2] := by decide
    rw [e] at h2
    exact List.perm_singleton.mp h2

/-- C14: for every index and every subtree `a`, `eval_query` on `AndNot(a, a)`
returns the empty set. -/
theorem C14_andnot_self (mem : Ptr → String) (index : index_t) (a : querynode) :
    eval_query mem index (.ANDNOT a a) = [] := by
  simp only [eval_query]
  exact set_difference_self mem _

/-- C15: for every index and all subtrees `a`, `b`, as sets of paths (byte
strings): `eval_query(And(a, b))` is a subset of `eval_query(a)` and of
`eval_query(b)`, and `eval_query(a)` and `eval_query(b)` are subsets of
`eval_query(Or(a, b))`. -/
theorem C15_and_or_subsets (mem : Ptr → String) (index : index_t) (a b : querynode) :
    (∀ s ∈ (eval_query mem index (.AND a b)).map mem, s ∈ (eval_query mem index a).map mem) ∧
      (∀ s ∈ (eval_query mem index (.AND a b)).map mem,
        s ∈ (eval_query mem index b).map mem) ∧
      (∀ s ∈ (eval_query mem index a).map mem,
        s ∈ (eval_query mem index (.OR a b)).map mem) ∧
      (∀ s ∈ (eval_query mem index b).map mem,
        s ∈ (eval_query mem index (.OR a b)).map mem) := by
  simp only [eval_query]
  refine ⟨?_, ?_, ?_, ?_⟩
  · intro s hs; exact ((set_intersection_bytes mem _ _ s).mp hs).1
  · intro s hs; exact ((set_intersection_bytes mem _ _ s).mp hs).2
  · intro s hs; exact (set_union_bytes mem _ _ s).mpr (Or.inl hs)
  · intro s hs; exact (set_union_bytes mem _ _ s).mpr (Or.inr hs)

/-- C15, at scenario S3: the path `a` of `cat AND dog` is a path of `cat`, and
the path `c` of `dog` is a path of `cat OR dog`. -/
theorem C15_and_or_subsets_witness :
    "a" ∈ (eval_query memS4 corpusS3 (.WORD "cat")).map memS4 ∧
      "c" ∈ (eval_query memS4 corpusS3 (.OR (.WORD "cat") (.WORD "dog"))).map memS4 :=
  ⟨(C15_and_or_subsets memS4 corpusS3 (.WORD "cat") (.WORD "dog")).1 "a" (by decide),
    (C15_and_or_subsets memS4 corpusS3 (.WORD "cat") (.WORD "dog")).2.2.2 "c" (by decide)⟩

/-- C16 (as stated, refuted): a document 1 with the word `w` 2^31 times, a
document 2 with `w` twice and an empty document 3 leave the `tf` value -2^31 for
document 1.  In the arithmetic with NaN the result of the query `w` is document
1 with the score NaN (the `log` of a negative number) followed by document 2
with the score `log(2) * log(3 / 2)`, and that list is not in descending order
of score; no comparison with NaN holds, so the other order of the two records
would not be either. -/
theorem C16_counterexample :
    index_query nan_log nan_of_int memS4
        (index_addpaths memS4 index_create
          [(1, List.replicate 2147483648 "w"), (2, ["w", "w"]), (3, [])])
        ["w"] none
      = some (some [⟨1, .nan⟩, ⟨2, .num (Real.log 2 * Real.log (3 / 2))⟩], none) ∧
    ¬ ([⟨1, .nan⟩, ⟨2, .num (Real.log 2 * Real.log (3 / 2))⟩] :
        List (query_result_t nan_real)).Pairwise (fun a b => b.score ≤ a.score) ∧
    ¬ ([⟨2, .num (Real.log 2 * Real.log (3 / 2))⟩, ⟨1, .nan⟩] :
        List (query_result_t nan_real)).Pairwise (fun a b => b.score ≤ a.score) := by
  have hidx : index_addpaths memS4 index_create
      [(1, List.replicate 2147483648 "w"), (2, ["w", "w"]), (3, [])]
      = ⟨[("w", ⟨[(1, -2147483648), (2, 2)], [1, 2]⟩)], [1, 2, 3]⟩ := by
    have h := addpaths_one_replicate memS4 "w" 1 2147483647
    have e : int_wrap (1 + ((2147483647 : Nat) : Int)) = -2147483648 := by
      unfold int_wrap; norm_num
    rw [e] at h
    have hsplit : [((1 : Ptr), List.replicate 2147483648 "w"), (2, ["w", "w"]), (3, [])]
        = [((1 : Ptr), List.replicate (2147483647 + 1) "w")] ++ [(2, ["w", "w"]), (3, [])] :=
      rfl
    rw [hsplit, index_addpaths_append, h]
    decide
  have hq : parse_query ["w"] = some (.ok (.WORD "w")) := by decide
  have he : eval_query memS4 ⟨[("w", ⟨[(1, -2147483648), (2, 2)], [1, 2]⟩)], [1, 2, 3]⟩
      (.WORD "w") = [1, 2] := by decide
  have hneg : ¬ (0 : ℝ) < ((-2147483648 : Int) : ℝ) := by norm_num
  have h2 : (0 : ℝ) < ((2 : Int) : ℝ) := by norm_num
  have h32 : ((3 : Int) : ℝ) / ((2 : Int) : ℝ) = 3 / 2 := by norm_num
  have h20 : ((2 : Int) : ℝ) ≠ 0 := by norm_num
  have hc1 : calc_score nan_log nan_of_int
      ⟨[("w", ⟨[(1, -2147483648), (2, 2)], [1, 2]⟩)], [1, 2, 3]⟩ 1 "w" = .nan := by
    simp only [calc_score, map_get, compare_strings, compare_pointers, beq_self_eq_true,
      if_true, nan_of_int, nan_log_neg _ hneg, nan_real_nan_mul]
  have hc2 : calc_score nan_log nan_of_int
      ⟨[("w", ⟨[(1, -2147483648), (2, 2)], [1, 2]⟩)], [1, 2, 3]⟩ 2 "w"
      = .num (Real.log 2 * Real.log (3 / 2)) := by
    have e1 : nan_log (nan_real.num ((2 : Int) : ℝ)) = .num (Real.log 2) := by
      rw [nan_log_num _ h2]; norm_num
    have e2 : nan_log (nan_real.num ((3 : Int) : ℝ) / nan_real.num ((2 : Int) : ℝ))
        = .num (Real.log (3 / 2)) := by
      rw [nan_real_div_num _ _ h20, h32, nan_log_num _ (by norm_num)]
    have e3 : map_get compare_pointers [((1 : Ptr), (-2147483648 : Int)), (2, 2)] 2 = some 2 := by
      decide
    have e4 : map_get compare_strings
        [("w", (⟨[(1, -2147483648), (2, 2)], [1, 2]⟩ : posting_t))] "w"
        = some ⟨[(1, -2147483648), (2, 2)], [1, 2]⟩ := by decide
    have e5 : list_size ([1, 2, 3] : List Ptr) = 3 := by decide
    have e6 : set_size ([1, 2] : List Ptr) = 2 := by decide
    simp only [calc_score, e4, e3, e5, e6, nan_of_int, e1, e2, nan_real_mul_num]
  have hz : (0 : nan_real) + nan_real.nan = .nan := rfl
  have hz2 : (0 : nan_real) + nan_real.num (Real.log 2 * Real.log (3 / 2))
      = .num (Real.log 2 * Real.log (3 / 2)) := by
    rw [nan_real_zero, nan_real_add_num, zero_add]
  have hlt1 : ¬ (nan_real.nan < nan_real.num (Real.log 2 * Real.log (3 / 2))) := fun h => h
  have hlt2 : ¬ (nan_real.num (Real.log 2 * Real.log (3 / 2)) < nan_real.nan) := fun h => h
  have hle1 : ¬ (nan_real.num (Real.log 2 * Real.log (3 / 2)) ≤ nan_real.nan) := fun h => h
  have hle2 : ¬ (nan_real.nan ≤ nan_real.num (Real.log 2 * Real.log (3 / 2))) := fun h => h
  rw [hidx]
  refine ⟨?_, ?_, ?_⟩
  · rw [index_query_ok _ _ _ _ _ _ _ hq, he]
    simp only [order_results, List.map_cons, List.map_nil, newresult, sum_scores, hc1, hc2, hz,
      hz2, list_sort, list_insert, compare_results, hlt1, hlt2, if_false, le_refl, if_true]
  · simp only [List.pairwise_cons, List.mem_singleton, forall_eq, hle1, false_and,
      not_false_eq_true]
  · simp only [List.pairwise_cons, List.mem_singleton, forall_eq, hle2, false_and,
      not_false_eq_true]

/-- C16 (amended): for every index reachable from `index_create` by
`index_addpath` calls in which no word is counted 2^31 times or more for one
path pointer, and every successfully parsed query, the list that `index_query`
returns is sorted by score in descending order: of two records the earlier one
has the greater or equal score.  This holds for every arithmetic of the scores
that is as claim C18 needs it (`0 <= 0`, sums and products of non-negative
scores are non-negative, `log` of an `int` that is at least 1 and `log(n / d)`
for `int`s `1 <= d <= n` are non-negative) and in which the non-negative scores
are linearly ordered; the arithmetic may have a NaN. -/
theorem C16_results_sorted {S : Type} [Zero S] [Add S] [Mul S] [Div S] [LE S] [LT S]
    [∀ a b : S, Decidable (a < b)] (log : S → S) (to_double : Int → S)
    (h0 : (0 : S) ≤ 0) (hadd : ∀ a b : S, 0 ≤ a → 0 ≤ b → 0 ≤ a + b)
    (hmul : ∀ a b : S, 0 ≤ a → 0 ≤ b → 0 ≤ a * b)
    (hlog : ∀ i : Int, 1 ≤ i → 0 ≤ log (to_double i))
    (hidf : ∀ n d : Int, 1 ≤ d → d ≤ n → 0 ≤ log (to_double n / to_double d))
    (hasymm : ∀ a b : S, 0 ≤ a → 0 ≤ b → a < b → ¬ b < a)
    (hntrans : ∀ a b c : S, 0 ≤ a → 0 ≤ b → 0 ≤ c → ¬ a < b → ¬ b < c → ¬ a < c)
    (hle : ∀ a b : S, 0 ≤ a → 0 ≤ b → ¬ a < b → b ≤ a)
    (mem : Ptr → String) (calls : List (Ptr × List String))
    (hb : ∀ path word, occurrences calls path word < 2147483648)
    (q : List String) (errmsg errmsg2 : Option String) (res : List (query_result_t S))
    (h : index_query log to_double mem (index_addpaths mem index_create calls) q errmsg
      = some (some res, errmsg2)) :
    res.Pairwise (fun a b => b.score ≤ a.score) := by
  unfold index_query at h
  cases hp : parse_query q with
  | none => simp [hp] at h
  | some x =>
    cases x with
    | error e => simp [hp] at h
    | ok t =>
      simp only [hp, Option.some.injEq, Prod.mk.injEq] at h
      rw [← h.1]
      unfold order_results
      have hpos : ∀ r ∈ List.map (fun path => newresult path
          (sum_scores log to_double (index_addpaths mem index_create calls) path 0 q))
          (eval_query mem (index_addpaths mem index_create calls) t), 0 ≤ r.score := by
        intro r hr
        obtain ⟨path, _, rfl⟩ := List.mem_map.mp hr
        exact sum_scores_nonneg log to_double h0 hadd hmul hlog hidf mem calls hb path q 0 h0
      have hs := list_sort_sorted_on (compare_results : query_result_t S → _ → Int)
        (fun r => 0 ≤ r.score)
        (by
          intro a b ha hb2 hab
          rw [compare_results_le_iff] at hab ⊢
          exact hasymm _ _ ha hb2 (not_not.mp hab))
        (by
          intro a b c ha hb2 hc hab hbc
          rw [compare_results_le_iff] at hab hbc ⊢
          exact hntrans _ _ _ ha hb2 hc hab hbc)
        _ hpos
      refine hs.imp_of_mem ?_
      intro a b ha hb2 hab
      have pa := hpos a ((list_sort_perm _ _).subset ha)
      have pb := hpos b ((list_sort_perm _ _).subset hb2)
      exact hle _ _ pa pb ((compare_results_le_iff a b).mp hab)

/-- C16 (amended), in the arithmetic with NaN, at a corpus where `w` occurs twice
in the document added first and four times in the document added second. -/
theorem C16_results_sorted_witness :
    ∃ res, index_query nan_log nan_of_int memS4
          (index_addpaths memS4 index_create
            [(2, ["w", "w"]), (1, ["w", "w", "w", "w"]), (3, ["u"])]) ["w"] none
          = some (some res, none) ∧
        res.Pairwise (fun a b => b.score ≤ a.score) :=
  ⟨_, rfl,
    C16_results_sorted nan_log nan_of_int nan_real_arithmetic.1 nan_real_arithmetic.2.1
      nan_real_arithmetic.2.2.1 nan_real_arithmetic.2.2.2.1 nan_real_arithmetic.2.2.2.2.1
      nan_real_arithmetic.2.2.2.2.2.1 nan_real_arithmetic.2.2.2.2.2.2.1
      nan_real_arithmetic.2.2.2.2.2.2.2 memS4
      [(2, ["w", "w"]), (1, ["w", "w", "w", "w"]), (3, ["u"])]
      (fun path word => lt_of_le_of_lt (occurrences_le _ path word) (by decide))
      ["w"] none none _ rfl⟩

/-- C17 (as stated, refuted): the addresses 3 and 4 hold the same path bytes
`c`.  First, document 3 holds `w` and document 4 holds `v` twice: for the query
`w ANDNOT ( v ANDNOT v )` the only record is the path at address 3 with score 0,
as the `tf` map of `v` has no key for that address, while the sum that the claim
describes for that path, with paths compared bytewise, is not 0.  Second,
document 3 holds `w` and document 4 holds `w w u`: for the query
`u ANDNOT ( w ANDNOT w )` the only record is the path at address 4, which as an
address is not in the `paths` set of `w`, and its score is not 0. -/
theorem C17_counterexample :
    index_query Real.log (fun i : Int => (i : ℝ)) memS4
        (index_addpaths memS4 index_create [(3, ["w"]), (4, ["v", "v"])])
        ["w", "ANDNOT", "(", "v", "ANDNOT", "v", ")"] none
      = some (some [⟨3, 0⟩], none) ∧
    (["w", "ANDNOT", "(", "v", "ANDNOT", "v", ")"].map
        (claimed_token_score Real.log (fun i : Int => (i : ℝ)) memS4
          (index_addpaths memS4 index_create [(3, ["w"]), (4, ["v", "v"])]) 3)).sum ≠ 0 ∧
    index_query Real.log (fun i : Int => (i : ℝ)) memS4
        (index_addpaths memS4 index_create [(3, ["w"]), (4, ["w", "w", "u"])])
        ["u", "ANDNOT", "(", "w", "ANDNOT", "w", ")"] none
      = some (some [⟨4, Real.log 2 * Real.log 2 + Real.log 2 * Real.log 2⟩], none) ∧
    Real.log 2 * Real.log 2 + Real.log 2 * Real.log 2 ≠ 0 ∧
    map_get compare_strings
        (index_addpaths memS4 index_create [(3, ["w"]), (4, ["w", "w", "u"])]).map "w"
      = some ⟨[(3, 1), (4, 2)], [3]⟩ := by
  have hidx : index_addpaths memS4 index_create [(3, ["w"]), (4, ["v", "v"])]
      = ⟨[("w", ⟨[(3, 1)], [3]⟩), ("v", ⟨[(4, 2)], [4]⟩)], [3, 4]⟩ := by decide
  have hidx2 : index_addpaths memS4 index_create [(3, ["w"]), (4, ["w", "w", "u"])]
      = ⟨[("w", ⟨[(3, 1), (4, 2)], [3]⟩), ("u", ⟨[(4, 1)], [4]⟩)], [3, 4]⟩ := by decide
  have hq : parse_query ["w", "ANDNOT", "(", "v", "ANDNOT", "v", ")"]
      = some (.ok (.ANDNOT (.WORD "w") (.ANDNOT (.WORD "v") (.WORD "v")))) := by decide
  have hq2 : parse_query ["u", "ANDNOT", "(", "w", "ANDNOT", "w", ")"]
      = some (.ok (.ANDNOT (.WORD "u") (.ANDNOT (.WORD "w") (.WORD "w")))) := by decide
  have he : eval_query memS4 ⟨[("w", ⟨[(3, 1)], [3]⟩), ("v", ⟨[(4, 2)], [4]⟩)], [3, 4]⟩
      (.ANDNOT (.WORD "w") (.ANDNOT (.WORD "v") (.WORD "v"))) = [3] := by decide
  have he2 : eval_query memS4
      ⟨[("w", ⟨[(3, 1), (4, 2)], [3]⟩), ("u", ⟨[(4, 1)], [4]⟩)], [3, 4]⟩
      (.ANDNOT (.WORD "u") (.ANDNOT (.WORD "w") (.WORD "w"))) = [4] := by decide
  have hl : 0 < Real.log 2 := Real.log_pos (by norm_num)
  have hl2 : Real.log 2 ≠ 0 := ne_of_gt hl
  rw [hidx, hidx2]
  refine ⟨?_, ?_, ?_, ?_, by decide⟩
  · rw [index_query_ok _ _ _ _ _ _ _ hq, he]
    simp [order_results, list_sort, list_insert, newresult, sum_scores, calc_score, map_get,
      compare_strings, compare_pointers, list_size, set_size]
  · simp [claimed_token_score, map_get, compare_strings, compare_paths, set_contains,
      list_size, set_size, memS4, hl2]
  · rw [index_query_ok _ _ _ _ _ _ _ hq2, he2]
    simp [order_results, list_sort, list_insert, newresult, sum_scores, calc_score, map_get,
      compare_strings, compare_pointers, list_size, set_size]
  · have := mul_pos hl hl
    linarith

/-- C17 (amended): for every index and every token sequence `q` that parses,
every record `(d, score)` of the result has as score the sum, taken from left to
right from 0, over all tokens `w` of the raw sequence `q` (operators,
parentheses and repeated words included) of `calc_score(d, w)`; and
`calc_score(d, w)` is 0 if `w` is not an indexed term, 0 if `d` is not a key of
the `tf` map of the posting of `w` (keys are compared by address), and otherwise
`log(tf[d]) * log(|paths of the index| / |paths of the posting|)`. -/
theorem C17_score_sum {S : Type} [Zero S] [Add S] [Mul S] [Div S] [LT S]
    [∀ a b : S, Decidable (a < b)] (log : S → S) (to_double : Int → S)
    (mem : Ptr → String) (index : index_t) (q : List String) (t : querynode)
    (errmsg : Option String) (h : parse_query q = some (.ok t)) :
    (∃ res, index_query log to_double mem index q errmsg = some (some res, errmsg) ∧
        ∀ r ∈ res, r.score
          = q.foldl (fun acc w => acc + calc_score log to_double index r.path w) 0) ∧
      (∀ d w, map_get compare_strings index.map w = none →
        calc_score log to_double index d w = 0) ∧
      (∀ d w p, map_get compare_strings index.map w = some p →
        map_get compare_pointers p.tf d = none → calc_score log to_double index d w = 0) ∧
      (∀ d w p tf, map_get compare_strings index.map w = some p →
        map_get compare_pointers p.tf d = some tf →
        calc_score log to_double index d w
          = log (to_double tf)
            * log (to_double (list_size index.paths) / to_double (set_size p.paths))) := by
  refine ⟨⟨_, index_query_ok log to_double mem index q t errmsg h, ?_⟩, ?_, ?_, ?_⟩
  · intro r hr
    unfold order_results at hr
    have hr2 := (list_sort_perm _ _).subset hr
    obtain ⟨path, _, rfl⟩ := List.mem_map.mp hr2
    simp only [newresult]
    exact sum_scores_foldl log to_double index path q 0
  · intro d w hg
    simp only [calc_score, hg]
  · intro d w p hg hk
    simp only [calc_score, hg, hk]
  · intro d w p tf hg hk
    simp only [calc_score, hg, hk]

/-- C17 (amended), at scenario S3 and the query `cat`. -/
theorem C17_score_sum_witness :
    parse_query ["cat"] = some (.ok (.WORD "cat")) ∧
      ∃ res, index_query Real.log (fun i : Int => (i : ℝ)) memS4 corpusS3 ["cat"] none
          = some (some res, none) ∧
        ∀ r ∈ res, r.score
          = ["cat"].foldl (fun acc w =>
              acc + calc_score Real.log (fun i : Int => (i : ℝ)) corpusS3 r.path w) 0 :=
  ⟨by decide,
    (C17_score_sum Real.log (fun i : Int => (i : ℝ)) memS4 corpusS3 ["cat"] (.WORD "cat") none
      (by decide)).1⟩

/-- C18 (as stated, refuted): after two `index_addpath` calls that repeat the
path pointer 1, each with the word `w` 2^30 times, the `tf` value of `w` is the
`int` -2^31, and the score of the only record of the query `w` is
`log(-2^31) * log(2 / 1)`.  With the real numbers for the scores and a `log`
that is the natural logarithm on the positive numbers and -1 elsewhere (a
`double` `log` gives NaN there, which is not `>= 0` either), that score is
negative. -/
theorem C18_counterexample :
    index_query (fun x : ℝ => if 0 < x then Real.log x else -1) (fun i : Int => (i : ℝ))
        memS4
        (index_addpaths memS4 index_create
          [(1, List.replicate 1073741824 "w"), (1, List.replicate 1073741824 "w")])
        ["w"] none
      = some (some [⟨1, -1 * Real.log 2⟩], none) ∧
    -1 * Real.log 2 < 0 ∧
    (∀ i : Int, 1 ≤ i → 0 ≤ (fun x : ℝ => if 0 < x then Real.log x else -1) (i : ℝ)) ∧
    (∀ n d : Int, 1 ≤ d → d ≤ n →
      0 ≤ (fun x : ℝ => if 0 < x then Real.log x else -1) ((n : ℝ) / (d : ℝ))) := by
  have hidx : index_addpaths memS4 index_create
      [(1, List.replicate 1073741824 "w"), (1, List.replicate 1073741824 "w")]
      = ⟨[("w", ⟨[(1, -2147483648)], [1]⟩)], [1, 1]⟩ := by
    have h := addpaths_two_replicate memS4 "w" 1 1073741823 1073741824
    have e : int_wrap (1 + ((1073741823 : Nat) : Int) + ((1073741824 : Nat) : Int))
        = -2147483648 := by
      unfold int_wrap; norm_num
    rw [e] at h
    exact h
  have hq : parse_query ["w"] = some (.ok (.WORD "w")) := by decide
  have hl : 0 < Real.log 2 := Real.log_pos (by norm_num)
  rw [hidx]
  refine ⟨?_, by linarith, ?_, ?_⟩
  · rw [index_query_ok _ _ _ _ _ _ _ hq]
    simp [order_results, list_sort, list_insert, newresult, sum_scores, calc_score, map_get,
      compare_strings, compare_pointers, list_size, set_size, eval_query, set_copy]
  · intro i hi
    have h1 : (1 : ℝ) ≤ (i : ℝ) := by exact_mod_cast hi
    have h2 : (0 : ℝ) < (i : ℝ) := by linarith
    simp only [h2, if_true]
    exact Real.log_nonneg h1
  · intro n d hd hn
    have hd2 : (0 : ℝ) < (d : ℝ) := by exact_mod_cast (by omega : (0 : Int) < d)
    have h1 : (1 : ℝ) ≤ (n : ℝ) / (d : ℝ) := by
      rw [le_div_iff₀ hd2, one_mul]
      exact_mod_cast hn
    have h2 : (0 : ℝ) < (n : ℝ) / (d : ℝ) := by linarith
    simp only [h2, if_true]
    exact Real.log_nonneg h1

/-- C18 (amended): for every index reachable from `index_create` by
`index_addpath` calls in which no word is counted 2^31 times or more for one
path pointer, and every successfully parsed query, every record of the result
has a score `>= 0`; this holds for every arithmetic of the scores in which
`0 <= 0`, sums and products of non-negative scores are non-negative, `log` of
an `int` that is at least 1 is non-negative, and `log(n / d)` is non-negative
for `int`s `1 <= d <= n`. -/
theorem C18_score_nonneg {S : Type} [Zero S] [Add S] [Mul S] [Div S] [LE S] [LT S]
    [∀ a b : S, Decidable (a < b)] (log : S → S) (to_double : Int → S)
    (h0 : (0 : S) ≤ 0) (hadd : ∀ a b : S, 0 ≤ a → 0 ≤ b → 0 ≤ a + b)
    (hmul : ∀ a b : S, 0 ≤ a → 0 ≤ b → 0 ≤ a * b)
    (hlog : ∀ i : Int, 1 ≤ i → 0 ≤ log (to_double i))
    (hidf : ∀ n d : Int, 1 ≤ d → d ≤ n → 0 ≤ log (to_double n / to_double d))
    (mem : Ptr → String) (calls : List (Ptr × List String))
    (hb : ∀ path word, occurrences calls path word < 2147483648)
    (q : List String) (errmsg errmsg2 : Option String) (res : List (query_result_t S))
    (h : index_query log to_double mem (index_addpaths mem index_create calls) q errmsg
      = some (some res, errmsg2)) :
    ∀ r ∈ res, 0 ≤ r.score := by
  have hcalc : ∀ d w, 0 ≤ calc_score log to_double (index_addpaths mem index_create calls)
      d w := by
    intro d w
    unfold calc_score
    cases hg : map_get compare_strings (index_addpaths mem index_create calls).map w with
    | none => exact h0
    | some p =>
      simp only
      cases hk : map_get compare_pointers p.tf d with
      | none => exact h0
      | some v =>
        simp only
        have hs := posting_size_reachable mem calls w p d v hg hk
        exact hmul _ _ (hlog v (tf_positive_reachable mem calls hb w p d v hg hk))
          (hidf _ _ hs.1 hs.2)
  have hsum : ∀ (d : Ptr) (ws : List String) (score : S), 0 ≤ score →
      0 ≤ sum_scores log to_double (index_addpaths mem index_create calls) d score ws := by
    intro d ws
    induction ws with
    | nil => intro score hs; exact hs
    | cons w ws ih =>
      intro score hs
      simp only [sum_scores]
      exact ih _ (hadd _ _ hs (hcalc d w))
  unfold index_query at h
  cases hp : parse_query q with
  | none => simp [hp] at h
  | some x =>
    cases x with
    | error e => simp [hp] at h
    | ok t =>
      simp only [hp, Option.some.injEq, Prod.mk.injEq] at h
      intro r hr
      rw [← h.1] at hr
      unfold order_results at hr
      obtain ⟨path, _, rfl⟩ := List.mem_map.mp ((list_sort_perm _ _).subset hr)
      exact hsum path q 0 h0

/-- C18 (amended), at scenario S3 and the query `cat`, with the real numbers
and their natural logarithm for the scores. -/
theorem C18_score_nonneg_witness :
    ∃ res, index_query Real.log (fun i : Int => (i : ℝ)) memS4
          (index_addpaths memS4 index_create [(1, ["cat", "dog"]), (2, ["cat"]), (3, ["dog"])])
          ["cat"] none = some (some res, none) ∧
        ∀ r ∈ res, 0 ≤ r.score :=
  ⟨_, rfl,
    C18_score_nonneg Real.log (fun i : Int => (i : ℝ)) le_rfl
      (fun _ _ ha hb => add_nonneg ha hb) (fun _ _ ha hb => mul_nonneg ha hb)
      (fun i hi => Real.log_nonneg (by
        show (1 : ℝ) ≤ (i : ℝ)
        exact_mod_cast hi))
      (fun n d hd hn => Real.log_nonneg (by
        show (1 : ℝ) ≤ (n : ℝ) / (d : ℝ)
        have hd2 : (0 : ℝ) < (d : ℝ) := by exact_mod_cast (by omega : (0 : Int) < d)
        rw [le_div_iff₀ hd2, one_mul]
        exact_mod_cast hn))
      memS4 [(1, ["cat", "dog"]), (2, ["cat"]), (3, ["dog"])]
      (fun path word => lt_of_le_of_lt (occurrences_le _ path word) (by decide))
      ["cat"] none none _ rfl⟩

/-- C19 (as stated, refuted): a reserved token is indexed like any other word.
With the documents `a = {AND, AND}` and `b = {}` the token `AND` is an indexed
term, and `calc_score` for `a` and `AND` is `log(2) * log(2 / 1)`, which is not
0. -/
theorem C19_counterexample :
    "AND" ∈ reservedTokens ∧
      calc_score Real.log (fun i : Int => (i : ℝ))
          (index_addpaths memS4 index_create [(1, ["AND", "AND"]), (2, [])]) 1 "AND"
        = Real.log 2 * Real.log 2 ∧
      Real.log 2 * Real.log 2 ≠ 0 := by
  have hidx : index_addpaths memS4 index_create [(1, ["AND", "AND"]), (2, [])]
      = ⟨[("AND", ⟨[(1, 2)], [1]⟩)], [1, 2]⟩ := by decide
  have hl : Real.log 2 ≠ 0 := ne_of_gt (Real.log_pos (by norm_num))
  refine ⟨by decide, ?_, mul_ne_zero hl hl⟩
  rw [hidx]
  simp [calc_score, map_get, compare_strings, compare_pointers, list_size, set_size]

/-- C19 (amended): for every reachable index, every document `d` and every
token `w`, reserved or not, that occurs in no indexed document, `calc_score`
for `d` and `w` is 0.  (A reserved token that occurs in a document is an
indexed term like any other word.) -/
theorem C19_unindexed_score_zero {S : Type} [Zero S] [Mul S] [Div S] (log : S → S)
    (to_double : Int → S) (mem : Ptr → String) (calls : List (Ptr × List String))
    (d : Ptr) (w : String) (h : ∀ c ∈ calls, w ∉ c.2) :
    calc_score log to_double (index_addpaths mem index_create calls) d w = 0 := by
  have hg := lookup_unindexed mem w calls h index_create rfl
  simp only [calc_score, hg]

/-- C19 (amended), at scenario S3, the document `a` and the token `AND`. -/
theorem C19_unindexed_score_zero_witness :
    "AND" ∈ reservedTokens ∧
      calc_score Real.log (fun i : Int => (i : ℝ))
        (index_addpaths memS4 index_create [(1, ["cat", "dog"]), (2, ["cat"]), (3, ["dog"])])
        1 "AND" = 0 :=
  ⟨by decide,
    C19_unindexed_score_zero Real.log (fun i : Int => (i : ℝ)) memS4
      [(1, ["cat", "dog"]), (2, ["cat"]), (3, ["dog"])] 1 "AND" (by decide)⟩

/-- C20: for every token sequence, empty or not, well-formed or not,
`parse_query` never yields the diagnostic `unexpected end of query`: the
parsing functions are only entered with a lookahead token. -/
theorem C20_no_unexpected_end (q : List String) :
    parse_query q ≠ some (.error "unexpected end of query") := by
  intro h
  rcases parse_query_error h with ⟨_, h1⟩ | h1 | h1
  · exact absurd h1 (by decide)
  · exact absurd h1 (by decide)
  · exact absurd h1 (by decide)
